import Mathlib

/-!
Verification of the Azure-AI-Agent repository core against its
natural-language specification.

The development shallowly embeds the two subsystems that carry all the
logic of the repository:

* `src/app/agent.py` — the agent orchestration loop (`run_agent`,
  `search_knowledge_base`, the in-process session memory with its
  sliding-window retention policy);
* `src/app/rag.py` — the ingestion pipeline
  (`process_and_index_document`, `delete_any_existing_documents`,
  `upload_to_blob`, `update_blob_status`) together with the document-key
  derivation `base64.urlsafe_b64encode(f"{filename}_{i}")` and werkzeug's
  `secure_filename` used by `src/app/main.py`.

External services (Azure OpenAI, Azure AI Search, Document Intelligence,
Blob Storage) appear through the same interfaces the Python code calls:
fallible calls are values of `Except Unit _` supplied by an environment
record, the search index is a key-addressed document store, the blob
container is a name-addressed store with metadata.  Machine-level detail
that no claim touches (floating point embedding values, HTTP transport)
is represented by opaque payloads (`List Int` vectors).
-/

/-! ## Decimal representation of natural numbers

Models Python's `str(i)` for a non-negative `int`, as used in the chunk
key expression `f"{filename}_{i}"` of `process_and_index_document`.
The definition is fuel-structural so that it reduces inside the kernel. -/

/-- Digit character for a value `d < 10`; values `≥ 10` do not occur. -/
def digitChar : Nat → Char
  | 0 => '0' | 1 => '1' | 2 => '2' | 3 => '3' | 4 => '4'
  | 5 => '5' | 6 => '6' | 7 => '7' | 8 => '8' | 9 => '9'
  | _ => '*'

def natReprAux : Nat → Nat → List Char
  | 0, _ => []
  | fuel + 1, n =>
    if n < 10 then [digitChar n]
    else natReprAux fuel (n / 10) ++ [digitChar (n % 10)]

/-- Decimal digit string of `n`, the model of Python `str(n)` for `n ≥ 0`. -/
def natRepr (n : Nat) : List Char := natReprAux (n + 1) n

/-- Left inverse of `natRepr`: read a digit string back as a number. -/
def decOfDigits (l : List Char) : Nat :=
  l.foldl (fun a c => 10 * a + (c.toNat - 48)) 0

theorem digitVal_digitChar {d : Nat} (h : d < 10) :
    (digitChar d).toNat - 48 = d := by
  interval_cases d <;> rfl

theorem decOfDigits_append_digit (l : List Char) (c : Char) :
    decOfDigits (l ++ [c]) = 10 * decOfDigits l + (c.toNat - 48) := by
  simp [decOfDigits, List.foldl_append]

theorem decOfDigits_natReprAux : ∀ (fuel n : Nat), n < fuel →
    decOfDigits (natReprAux fuel n) = n := by
  intro fuel
  induction fuel with
  | zero => omega
  | succ f ih =>
    intro n hn
    by_cases h10 : n < 10
    · simp [natReprAux, h10, decOfDigits, digitVal_digitChar h10]
    · have hrec : n / 10 < f := by omega
      simp only [natReprAux, if_neg h10, decOfDigits_append_digit, ih _ hrec,
        digitVal_digitChar (Nat.mod_lt n (by omega))]
      omega

/-- Reading back the decimal digit string recovers the number. -/
theorem decOfDigits_natRepr (n : Nat) : decOfDigits (natRepr n) = n :=
  decOfDigits_natReprAux (n + 1) n (by omega)

/-- Python's `str` on distinct non-negative integers yields distinct strings. -/
theorem natRepr_injective {m n : Nat} (h : natRepr m = natRepr n) : m = n := by
  have := decOfDigits_natRepr m
  rw [h, decOfDigits_natRepr] at this
  omega

theorem digitChar_toNat_lt {d : Nat} (h : d < 10) : (digitChar d).toNat < 256 := by
  interval_cases d <;> decide

theorem natReprAux_bytes : ∀ (fuel n : Nat), ∀ c ∈ natReprAux fuel n, c.toNat < 256 := by
  intro fuel
  induction fuel with
  | zero => intro n c hc; simp [natReprAux] at hc
  | succ f ih =>
    intro n c hc
    by_cases h10 : n < 10
    · simp [natReprAux, h10] at hc
      subst hc; exact digitChar_toNat_lt h10
    · simp only [natReprAux, if_neg h10, List.mem_append, List.mem_singleton] at hc
      rcases hc with hc | hc
      · exact ih _ _ hc
      · subst hc; exact digitChar_toNat_lt (Nat.mod_lt n (by omega))

/-- Every character of a decimal digit string is a single byte. -/
theorem natRepr_bytes (n : Nat) : ∀ c ∈ natRepr n, c.toNat < 256 :=
  natReprAux_bytes (n + 1) n

/-! ## URL-safe base64

Models Python's `base64.urlsafe_b64encode(...).decode()` on a byte
sequence, as used for the search-document key in
`process_and_index_document` (`src/app/rag.py` line 167).  Bytes are
`Nat`s below 256. -/

def b64Alphabet : List Char :=
  "ABCDEFGHIJKLMNOPQRSTUVWXYZabcdefghijklmnopqrstuvwxyz0123456789-_".data

/-- Alphabet character of a sextet value. -/
def b64Char (n : Nat) : Char := b64Alphabet.getD n '?'

def b64ValAux : List Char → Nat → Char → Nat
  | [], _, _ => 0
  | a :: rest, i, c => if c = a then i else b64ValAux rest (i + 1) c

/-- Sextet value of an alphabet character. -/
def b64Val (c : Char) : Nat := b64ValAux b64Alphabet 0 c

/-- Standard base64 encoding with the URL-safe alphabet and `=` padding. -/
def b64Encode : List Nat → List Char
  | [] => []
  | [b0] => [b64Char (b0 / 4), b64Char (b0 % 4 * 16), '=', '=']
  | [b0, b1] =>
    [b64Char (b0 / 4), b64Char (b0 % 4 * 16 + b1 / 16), b64Char (b1 % 16 * 4), '=']
  | b0 :: b1 :: b2 :: rest =>
    b64Char (b0 / 4) :: b64Char (b0 % 4 * 16 + b1 / 16) ::
      b64Char (b1 % 16 * 4 + b2 / 64) :: b64Char (b2 % 64) :: b64Encode rest

/-- Inverse direction, used only to prove the encoding injective. -/
def b64Decode : List Char → List Nat
  | c0 :: c1 :: c2 :: c3 :: rest =>
    if c2 = '=' then [b64Val c0 * 4 + b64Val c1 / 16]
    else if c3 = '=' then
      [b64Val c0 * 4 + b64Val c1 / 16, b64Val c1 % 16 * 16 + b64Val c2 / 4]
    else
      (b64Val c0 * 4 + b64Val c1 / 16) :: (b64Val c1 % 16 * 16 + b64Val c2 / 4) ::
        (b64Val c2 % 4 * 64 + b64Val c3) :: b64Decode rest
  | _ => []

theorem b64Val_b64Char : ∀ n, n < 64 → b64Val (b64Char n) = n := by decide

theorem b64Char_ne_pad : ∀ n, n < 64 → b64Char n ≠ '=' := by decide

theorem b64_roundtrip : ∀ bs : List Nat, (∀ b ∈ bs, b < 256) →
    b64Decode (b64Encode bs) = bs
  | [], _ => rfl
  | [b0], h => by
    have hb0 : b0 < 256 := h b0 (by simp)
    simp only [b64Encode, b64Decode]
    rw [if_pos True.intro]
    rw [b64Val_b64Char _ (by omega : b0 / 4 < 64),
      b64Val_b64Char _ (by omega : b0 % 4 * 16 < 64)]
    simp only [List.cons.injEq, and_true]
    omega
  | [b0, b1], h => by
    have hb0 : b0 < 256 := h b0 (by simp)
    have hb1 : b1 < 256 := h b1 (by simp)
    simp only [b64Encode, b64Decode]
    rw [if_neg (b64Char_ne_pad _ (by omega : b1 % 16 * 4 < 64)), if_pos True.intro]
    rw [b64Val_b64Char _ (by omega : b0 / 4 < 64),
      b64Val_b64Char _ (by omega : b0 % 4 * 16 + b1 / 16 < 64),
      b64Val_b64Char _ (by omega : b1 % 16 * 4 < 64)]
    simp only [List.cons.injEq, and_true]
    omega
  | [b0, b1, b2], h => by
    have hb0 : b0 < 256 := h b0 (by simp)
    have hb1 : b1 < 256 := h b1 (by simp)
    have hb2 : b2 < 256 := h b2 (by simp)
    simp only [b64Encode, b64Decode]
    rw [if_neg (b64Char_ne_pad _ (by omega : b1 % 16 * 4 + b2 / 64 < 64)),
      if_neg (b64Char_ne_pad _ (by omega : b2 % 64 < 64))]
    rw [b64Val_b64Char _ (by omega : b0 / 4 < 64),
      b64Val_b64Char _ (by omega : b0 % 4 * 16 + b1 / 16 < 64),
      b64Val_b64Char _ (by omega : b1 % 16 * 4 + b2 / 64 < 64),
      b64Val_b64Char _ (by omega : b2 % 64 < 64)]
    simp only [b64Encode, b64Decode, List.cons.injEq, and_true]
    omega
  | b0 :: b1 :: b2 :: b3 :: rest, h => by
    have hb0 : b0 < 256 := h b0 (by simp)
    have hb1 : b1 < 256 := h b1 (by simp)
    have hb2 : b2 < 256 := h b2 (by simp)
    have hrest : ∀ b ∈ b3 :: rest, b < 256 := fun b hb => h b (by simp [hb])
    simp only [b64Encode, b64Decode]
    rw [if_neg (b64Char_ne_pad _ (by omega : b1 % 16 * 4 + b2 / 64 < 64)),
      if_neg (b64Char_ne_pad _ (by omega : b2 % 64 < 64))]
    rw [b64Val_b64Char _ (by omega : b0 / 4 < 64),
      b64Val_b64Char _ (by omega : b0 % 4 * 16 + b1 / 16 < 64),
      b64Val_b64Char _ (by omega : b1 % 16 * 4 + b2 / 64 < 64),
      b64Val_b64Char _ (by omega : b2 % 64 < 64)]
    rw [b64_roundtrip (b3 :: rest) hrest]
    simp only [List.cons.injEq, and_true]
    omega

/-- The base64 encoding is injective on byte sequences. -/
theorem b64Encode_injective {bs₁ bs₂ : List Nat}
    (h₁ : ∀ b ∈ bs₁, b < 256) (h₂ : ∀ b ∈ bs₂, b < 256)
    (h : b64Encode bs₁ = b64Encode bs₂) : bs₁ = bs₂ := by
  have := b64_roundtrip bs₁ h₁
  rw [h, b64_roundtrip bs₂ h₂] at this
  exact this.symm

/-! ## Strings as byte sequences

The filenames that reach the chunk-key derivation are outputs of
`secure_filename`, hence ASCII; on ASCII (more generally Latin-1
codepoints) the UTF-8 encoding used by Python's `str.encode()` sends each
character to its codepoint, which `strBytes` models. -/

def strBytes (s : String) : List Nat := s.data.map Char.toNat

theorem char_toNat_injective {a b : Char} (h : a.toNat = b.toNat) : a = b :=
  Char.ext (UInt32.toNat.inj h)

theorem strBytes_injective {s t : String} (h : strBytes s = strBytes t) : s = t := by
  refine String.ext ?_
  exact List.map_injective_iff.mpr (fun a b hab => char_toNat_injective hab) h

/-! ## Chunk storage key

Models the key expression of `process_and_index_document`
(`src/app/rag.py` line 167):
`base64.urlsafe_b64encode(f"{filename}_{i}".encode()).decode()`. -/

/-- Python f-string `f"{filename}_{i}"`. -/
def pyFormatKey (filename : String) (i : Nat) : String :=
  filename ++ "_" ++ ⟨natRepr i⟩

/-- Storage key of chunk `i` of document `filename`. -/
def encodeKey (filename : String) (i : Nat) : String :=
  ⟨b64Encode (strBytes (pyFormatKey filename i))⟩

theorem pyFormatKey_data (filename : String) (i : Nat) :
    (pyFormatKey filename i).data = filename.data ++ '_' :: natRepr i := by
  simp [pyFormatKey, String.data_append]

theorem pyFormatKey_bytes {filename : String}
    (hf : ∀ c ∈ filename.data, c.toNat < 256) (i : Nat) :
    ∀ b ∈ strBytes (pyFormatKey filename i), b < 256 := by
  intro b hb
  simp only [strBytes, List.mem_map, pyFormatKey_data] at hb
  obtain ⟨c, hc, rfl⟩ := hb
  rcases List.mem_append.mp hc with hc | hc
  · exact hf c hc
  · rcases List.mem_cons.mp hc with rfl | hc
    · decide
    · exact natRepr_bytes i c hc

/-- For a fixed single-byte filename, distinct chunk ordinals yield distinct
storage keys: the base64 key derivation is injective in the ordinal. -/
theorem encodeKey_injective {filename : String}
    (hf : ∀ c ∈ filename.data, c.toNat < 256) {i j : Nat}
    (h : encodeKey filename i = encodeKey filename j) : i = j := by
  have hdata := congrArg String.data h
  simp only [encodeKey] at hdata
  have hbytes := b64Encode_injective (pyFormatKey_bytes hf i) (pyFormatKey_bytes hf j) hdata
  have hstr : pyFormatKey filename i = pyFormatKey filename j := strBytes_injective hbytes
  have hlist := congrArg String.data hstr
  rw [pyFormatKey_data, pyFormatKey_data] at hlist
  have := List.append_cancel_left hlist
  exact natRepr_injective (List.cons.injEq .. ▸ this |>.2)

/-! ## secure_filename

Models werkzeug's `secure_filename`, applied by `upload_to_blob`
(`src/app/rag.py` line 89) to the submitted filename.  The model follows
the werkzeug source on a POSIX host (`os.sep = '/'`, `os.path.altsep =
None`, `os.name ≠ 'nt'` so the Windows device-file branch is not taken):

1. `unicodedata.normalize("NFKD", ·).encode("ascii", "ignore")` —
   modelled as dropping every non-ASCII codepoint (exact for ASCII
   inputs; for characters with an NFKD decomposition werkzeug instead
   keeps the ASCII part of the decomposition, which this model does not
   reproduce — every claim is settled on ASCII submissions);
2. replace `os.sep` (`'/'`) by a space;
3. `"_".join(filename.split())` — split on whitespace runs, join by `_`;
4. delete every character outside `[A-Za-z0-9_.-]`;
5. `.strip("._")`. -/

def pyIsSpace (c : Char) : Bool :=
  c == ' ' || c == '\t' || c == '\n' || c == '\r' || c == '\x0b' || c == '\x0c'

def wsSplitAux : List Char → List Char → List (List Char)
  | [], cur => [cur.reverse]
  | c :: cs, cur =>
    if pyIsSpace c then cur.reverse :: wsSplitAux cs [] else wsSplitAux cs (c :: cur)

/-- Python `str.split()` with no argument: whitespace runs, empties dropped. -/
def pySplitWs (l : List Char) : List (List Char) :=
  (wsSplitAux l []).filter (fun s => !s.isEmpty)

/-- Characters the werkzeug regular expression `[^A-Za-z0-9_.-]` keeps. -/
def allowedChar (c : Char) : Bool :=
  ('A' ≤ c && c ≤ 'Z') || ('a' ≤ c && c ≤ 'z') || ('0' ≤ c && c ≤ '9') ||
    c == '_' || c == '.' || c == '-'

def stripDotUnd (l : List Char) : List Char :=
  l.dropWhile (fun c => c == '.' || c == '_')

/-- Python `str.strip("._")`: remove leading and trailing `.` and `_`. -/
def pyStripDotUnd (l : List Char) : List Char :=
  ((stripDotUnd l).reverse |> stripDotUnd).reverse

def secure_filename (s : String) : String :=
  let ascii := s.data.filter (fun c => c.toNat < 128)
  let replaced := ascii.map (fun c => if c == '/' then ' ' else c)
  let joined := List.intercalate ['_'] (pySplitWs replaced)
  let cleaned := joined.filter allowedChar
  ⟨pyStripDotUnd cleaned⟩

theorem secure_filename_space : secure_filename "my file.pdf" = "my_file.pdf" := by decide

theorem secure_filename_traversal : secure_filename "../../etc/passwd" = "etc_passwd" := by
  decide

/-! ## Search index and blob store

The Azure AI Search index is keyed by the `id` field: the `upload`
action of `search_client.upload_documents` inserts a new document or
replaces the document with the same key, and the `delete` action removes
by key.  The blob container maps a blob name to its content and
metadata. -/

structure IndexDoc where
  id : String
  content : String
  text_vector : List Int
  chunk_index : Nat
  source_url : String
  source_document : String
deriving DecidableEq, Repr

structure BlobMeta where
  status : String
  original_name : String
  pageCount : Option Nat
  data : List Nat
deriving DecidableEq, Repr

abbrev BlobStore := List (String × BlobMeta)

def blobGet : BlobStore → String → Option BlobMeta
  | [], _ => none
  | (k, v) :: rest, n => if k == n then some v else blobGet rest n

def blobSet : BlobStore → String → BlobMeta → BlobStore
  | [], n, v => [(n, v)]
  | (k, w) :: rest, n, v =>
    if k == n then (k, v) :: rest else (k, w) :: blobSet rest n v

/-- Outcome of `search_client.upload_documents` on `upload` actions:
insert each document, replacing any existing document with the same key. -/
def uploadDocs (index : List IndexDoc) (docs : List IndexDoc) : List IndexDoc :=
  docs.foldl (fun acc d =>
    if acc.any (fun e => e.id == d.id) then
      acc.map (fun e => if e.id == d.id then d else e)
    else acc ++ [d]) index

/-- Model of `delete_any_existing_documents` (`src/app/rag.py` lines
121–137): search the index for every document whose `source_document`
equals `fileName`, collect their keys, and delete those keys (the
`if keys_to_delete` guard is the identity when the key list is empty,
exactly as the modelled removal is). -/
def delete_any_existing_documents (index : List IndexDoc) (fileName : String) :
    List IndexDoc :=
  let keys_to_delete := (index.filter (fun d => d.source_document == fileName)).map (·.id)
  index.filter (fun d => !keys_to_delete.contains d.id)

/-- Configuration value `AZURE_STORAGE_ENDPOINT`. -/
def storage_endpoint : String := "https://account.blob.core.windows.net"

/-- Configuration value `AZURE_STORAGE_CONTAINER_NAME`. -/
def container_name : String := "documents"

/-- Model of `upload_to_blob` (`src/app/rag.py` lines 83–98): sanitize the
submitted name with `secure_filename`, upload under the clean name with
`overwrite=True` and `status=processing` metadata, and return the clean
name together with the blob URL. -/
def upload_to_blob (blobs : BlobStore) (file_content : List Nat) (filename : String) :
    BlobStore × String × String :=
  let clean_filename := secure_filename filename
  (blobSet blobs clean_filename
      { status := "processing", original_name := filename, pageCount := none,
        data := file_content },
    clean_filename,
    storage_endpoint ++ "/" ++ container_name ++ "/" ++ clean_filename)

/-- Model of `update_blob_status` (`src/app/rag.py` lines 100–109): merge
`status` and `pageCount` into the metadata of an existing blob; raises
(models `ResourceNotFound`) when the blob does not exist. -/
def update_blob_status (blobs : BlobStore) (filename : String) (page_count : Nat)
    (status : String) : Except Unit BlobStore :=
  match blobGet blobs filename with
  | none => .error ()
  | some meta =>
    .ok (blobSet blobs filename
      { meta with status := status, pageCount := some page_count })

/-! ## Ingestion pipeline

`process_and_index_document` (`src/app/rag.py` lines 139–184).  The
external calls are supplied by an `IngestEnv`: `extract` is the Document
Intelligence call (`Return_Poller_Result`, giving `result.content` and
`len(result.pages)`), `chunker` is `chunk_to_documents` (chonkie's
deterministic `RecursiveChunker(chunk_size=512,
min_characters_per_chunk=100)`, kept abstract as a text-splitting
function), `embed` is `openai_batch_embedding`, and `deleteOk` /
`uploadOk` inject failures of the two search-index calls. -/

structure IngestEnv where
  extract : Except Unit (String × Nat)
  chunker : String → List String
  embed : List String → Except Unit (List (List Int))
  deleteOk : Bool
  uploadOk : Bool

structure IngestOut where
  result : Except Unit (String × Nat × String)
  index : List IndexDoc
  blobs : BlobStore

/-- Search documents built at step 4 of the pipeline: for chunk `i` the
key is `base64.urlsafe_b64encode(f"{filename}_{i}")`, the ordinal field
`chunk_index` is `i + 1`, and the embedding is `embeddings[i]` (the
pipeline guards the lengths, so the `getD` default is never read). -/
def buildSearchDocs (filename file_url : String) (chunkTexts : List String)
    (embeddings : List (List Int)) : List IndexDoc :=
  chunkTexts.enum.map (fun p =>
    { id := encodeKey filename p.1
      content := p.2
      text_vector := embeddings.getD p.1 []
      chunk_index := p.1 + 1
      source_url := file_url
      source_document := filename })

def process_and_index_document (env : IngestEnv) (filename file_url : String)
    (index : List IndexDoc) (blobs : BlobStore) : IngestOut :=
  match env.extract with
  | .error e => ⟨.error e, index, blobs⟩
  | .ok (markdown_text, page_count) =>
    let chunks := env.chunker markdown_text
    match env.embed chunks with
    | .error e => ⟨.error e, index, blobs⟩
    | .ok embeddings =>
      if embeddings.length < chunks.length then ⟨.error (), index, blobs⟩
      else
        let search_documents := buildSearchDocs filename file_url chunks embeddings
        if search_documents.isEmpty then
          match update_blob_status blobs filename page_count "ready" with
          | .error e => ⟨.error e, index, blobs⟩
          | .ok blobs1 => ⟨.ok (filename, chunks.length, "Indexed"), index, blobs1⟩
        else
          if env.deleteOk then
            let index1 := delete_any_existing_documents index filename
            if env.uploadOk then
              let index2 := uploadDocs index1 search_documents
              match update_blob_status blobs filename page_count "ready" with
              | .error e => ⟨.error e, index2, blobs⟩
              | .ok blobs1 => ⟨.ok (filename, chunks.length, "Indexed"), index2, blobs1⟩
            else ⟨.error (), index1, blobs⟩
          else ⟨.error (), index, blobs⟩

/-- Model of the `/upload` route (`src/app/main.py` lines 40–68): reject
non-PDF names, reject files failing the external page-limit validation
(`pdf_ok` stands for `validate_pdf_size` succeeding), then upload to blob
storage; the returned clean name and URL are exactly the arguments later
handed to the background `process_and_index_document` task. -/
def pyEndsWith (s suffix : String) : Bool :=
  suffix.data.isSuffixOf s.data

def upload_pdf (blobs : BlobStore) (filename : String) (file_content : List Nat)
    (pdf_ok : Bool) : Except Unit (BlobStore × String × String) :=
  if !pyEndsWith filename ".pdf" then .error ()
  else if !pdf_ok then .error ()
  else .ok (upload_to_blob blobs file_content filename)

/-! ## Retrieval gateway

`search_knowledge_base` (`src/app/agent.py` lines 37–68).  The external
hybrid query (`search_client.search` with `search_text`, a
`VectorizableTextQuery` over `2×count` nearest neighbours, `top=count`,
and the OData filter `source_document eq '<filename_filter>'` applied
exactly when a filter was given) is modelled by `azureSearch`: the hits
are drawn from the index, respect the filter, and number at most
`count`; the service's relevance ranking is modelled by index order,
which no claim depends on.  `addHit` is the grouping loop over the
result iterator. -/

structure SourceEntry where
  url : String
  context : List String
deriving DecidableEq, Repr

abbrev SourcesMap := List (String × SourceEntry)

def azureSearch (index : List IndexDoc) (filename_filter : Option String)
    (count : Nat) : List IndexDoc :=
  (index.filter (fun d =>
    match filename_filter with
    | some f => d.source_document == f
    | none => true)).take count

def smContains (sources : SourcesMap) (k : String) : Bool :=
  sources.any (fun p => p.1 == k)

/-- Loop body of `search_knowledge_base`: create the entry on first sight
of a document, then append the chunk content to its context list. -/
def addHit (sources : SourcesMap) (doc : IndexDoc) : SourcesMap :=
  let sources1 :=
    if smContains sources doc.source_document then sources
    else sources ++ [(doc.source_document, { url := doc.source_url, context := [] })]
  sources1.map (fun p =>
    if p.1 == doc.source_document then
      (p.1, { p.2 with context := p.2.context ++ [doc.content] })
    else p)

def search_knowledge_base (index : List IndexDoc) (query : String)
    (filename_filter : Option String) (count : Nat := 5) : SourcesMap :=
  (azureSearch index filename_filter count).foldl addHit []

/-! ## Agent orchestration loop

`run_agent` (`src/app/agent.py` lines 117–184) together with the session
memory.  The two chat-completions calls and the retrieval call are
supplied by an `AgentEnv`; `Except.error` models the call raising.  A
conversation entry is a `Msg`; the assistant message carrying tool calls
is stored structurally (`response_message`), and a tool message stores
the sources structure whose `json.dumps` serialization the code appends.
`SESSION_MEMORY` is a name-keyed store of transcripts; Python's in-place
`history.append` makes every append immediately visible in the store,
which the model reflects by writing the session back at each step. -/

structure ToolArgs where
  query : String
  proposed_filename : Option String
deriving DecidableEq, Repr

structure ToolCall where
  id : String
  name : String
  arguments : ToolArgs
deriving DecidableEq, Repr

structure LLMResponse where
  content : String
  tool_calls : List ToolCall
deriving DecidableEq, Repr

inductive Msg where
  | system (content : String)
  | user (content : String)
  | assistant (content : String)
  | assistantToolCalls (calls : List ToolCall)
  | tool (tool_call_id : String) (name : String) (payload : SourcesMap)
deriving DecidableEq, Repr

abbrev SessionStore := List (String × List Msg)

def storeContains (mem : SessionStore) (sid : String) : Bool :=
  mem.any (fun p => p.1 == sid)

def storeGet : SessionStore → String → List Msg
  | [], _ => []
  | (k, v) :: rest, sid => if k == sid then v else storeGet rest sid

def storeSet : SessionStore → String → List Msg → SessionStore
  | [], sid, h => [(sid, h)]
  | (k, v) :: rest, sid, h =>
    if k == sid then (k, h) :: rest else (k, v) :: storeSet rest sid h

/-- Model of `clear_session_memory` (`src/app/agent.py` lines 109–113). -/
def clear_session_memory (mem : SessionStore) (session_id : String) : SessionStore :=
  mem.filter (fun p => !(p.1 == session_id))

/-- Fixed system instruction text of `src/app/agent.py` (lines 92–105). -/
def SYSTEM_PROMPT : String :=
  "\nYou are a highly precise Research Assistant for a corporation. \n\n### CORE INSTRUCTIONS:\n1. **Efficiency:** If the user asks a general question (greeting, math, joke, coding help), ANSWER DIRECTLY. Do not use tools.\n2.  **Grounding:** You must answer the user's question PRIMARILY based on the context provided by the tool `search_knowledge_base`.\n3.  **Citation:** Every factual statement you make must be immediately followed by a citation in the format `[Source: DocumentName]`. \n    - Example: \"The vacation policy allows 20 days off [Source: employee_handbook.pdf].\"\n4.  **No Hallucination:** If the tool results do not contain the answer, explicitly state: \"I cannot find this information in the provided document.\"\n5.  **Style:** Be professional, direct, and structured. Use Markdown headers and bullet points where appropriate.\n\n### TOOL USAGE:\n- You have access to a search tool. You MUST use it for every query regarding document content.\n"

/-- Python slice `l[-n:]`: the last `n` elements, except that `l[-0:]`
is the whole list (`-0 == 0`, so the slice starts at the beginning). -/
def pySliceLast (n : Nat) (l : List Msg) : List Msg :=
  if n = 0 then l else l.drop (l.length - n)

/-- Sliding-window trim of `run_agent` (`src/app/agent.py` lines
174–182): when the transcript exceeds `MAX_HISTORY_LIMIT + 1` entries,
keep `[history[0]] + history[-MAX_HISTORY_LIMIT:]`. -/
def slidingWindow (max_history_limit : Nat) (history : List Msg) : List Msg :=
  if history.length > max_history_limit + 1 then
    history.take 1 ++ pySliceLast max_history_limit history
  else history

/-- Python `dict.update`: merge the right map into the left, replacing
values of existing keys in place and appending new keys in order. -/
def dictUpdate (a b : SourcesMap) : SourcesMap :=
  b.foldl (fun acc kv =>
    if smContains acc kv.1 then
      acc.map (fun p => if p.1 == kv.1 then kv else p)
    else acc ++ [kv]) a

structure AgentEnv where
  llm1 : Except Unit LLMResponse
  search : String → Option String → Except Unit SourcesMap
  llm2 : Except Unit LLMResponse

/-- One executed retrieval: originating tool-call id, the model-chosen
query, and the filter the code actually passed to the search. -/
structure SearchInvocation where
  call_id : String
  query : String
  filter : Option String
deriving DecidableEq, Repr

structure TurnOut where
  result : Except Unit (String × SourcesMap)
  store : SessionStore
  invocations : List SearchInvocation
  llm_calls : Nat

/-- Tool-dispatch loop of `run_agent` (`src/app/agent.py` lines
143–159): for each requested call whose name is `search_knowledge_base`,
parse the arguments, execute the search with the model-chosen `query`
but the caller-supplied `target_file` as `filename_filter`, merge the
sources, and append one tool message keyed by the call id.  Returns the
loop status, the messages appended so far, the merged sources, and the
log of executed retrievals. -/
def execToolCalls (env : AgentEnv) (target_file : Option String) :
    List ToolCall → SourcesMap →
      Except Unit Unit × List Msg × SourcesMap × List SearchInvocation
  | [], final_sources => (.ok (), [], final_sources, [])
  | c :: rest, final_sources =>
    if c.name = "search_knowledge_base" then
      match env.search c.arguments.query target_file with
      | .error e => (.error e, [], final_sources, [⟨c.id, c.arguments.query, target_file⟩])
      | .ok sources =>
        let (st, msgs, fsrc, log) :=
          execToolCalls env target_file rest (dictUpdate final_sources sources)
        (st, Msg.tool c.id "search_knowledge_base" sources :: msgs,
          fsrc, ⟨c.id, c.arguments.query, target_file⟩ :: log)
    else execToolCalls env target_file rest final_sources

/-- Model of `run_agent` (`src/app/agent.py` lines 117–184).
`max_history_limit` is the configuration value `MAX_HISTORY_LIMIT` read
from the environment.  The store is written back at every point where
the Python code's in-place `history.append` (on the list aliased by
`SESSION_MEMORY[session_id]`) makes an appended entry visible, so the
store returned on an `Except.error` outcome is exactly the state a
subsequent turn observes after the exception propagated. -/
def run_agent (env : AgentEnv) (user_query : String) (session_id : String)
    (target_file : Option String) (mem : SessionStore)
    (max_history_limit : Nat) : TurnOut :=
  let mem0 := if storeContains mem session_id then mem
    else storeSet mem session_id [Msg.system SYSTEM_PROMPT]
  let history0 := storeGet mem0 session_id
  let history1 := history0 ++ [Msg.user user_query]
  let mem1 := storeSet mem0 session_id history1
  match env.llm1 with
  | .error e => ⟨.error e, mem1, [], 1⟩
  | .ok response_message =>
    if response_message.tool_calls.isEmpty then
      let answer_text := response_message.content
      let history2 := history1 ++ [Msg.assistant answer_text]
      let history3 := slidingWindow max_history_limit history2
      ⟨.ok (answer_text, []), storeSet mem1 session_id history3, [], 1⟩
    else
      let history2 := history1 ++ [Msg.assistantToolCalls response_message.tool_calls]
      let mem2 := storeSet mem1 session_id history2
      match execToolCalls env target_file response_message.tool_calls [] with
      | (.error e, msgs, _, log) =>
        ⟨.error e, storeSet mem2 session_id (history2 ++ msgs), log, 1⟩
      | (.ok _, msgs, final_sources, log) =>
        let history3 := history2 ++ msgs
        let mem3 := storeSet mem2 session_id history3
        match env.llm2 with
        | .error e => ⟨.error e, mem3, log, 2⟩
        | .ok final_response =>
          let answer_text := final_response.content
          let history4 := history3 ++ [Msg.assistant answer_text]
          let history5 := slidingWindow max_history_limit history4
          ⟨.ok (answer_text, final_sources), storeSet mem3 session_id history5, log, 2⟩

/-- One turn of the `/ask` route: environment for the external calls plus
the route arguments. -/
structure TurnSpec where
  env : AgentEnv
  user_query : String
  session_id : String
  target_file : Option String

/-- Session store after a sequence of `/ask` turns. -/
def runTurns (max_history_limit : Nat) (turns : List TurnSpec)
    (mem : SessionStore) : SessionStore :=
  turns.foldl
    (fun m t => (run_agent t.env t.user_query t.session_id t.target_file m
      max_history_limit).store) mem

/-- Transcript a session holds at the start of a turn: the stored one, or
the fresh `[system]` transcript created by lazy initialization. -/
def initHist (mem : SessionStore) (session_id : String) : List Msg :=
  if storeContains mem session_id then storeGet mem session_id
  else [Msg.system SYSTEM_PROMPT]

/-- Whether a turn completes without an exception; a pure function of the
environment since the modelled external calls do not read the transcript. -/
def turnOk (env : AgentEnv) (target_file : Option String) : Bool :=
  match env.llm1 with
  | .error _ => false
  | .ok r =>
    if r.tool_calls.isEmpty then true
    else
      match execToolCalls env target_file r.tool_calls [] with
      | (.ok _, _, _, _) =>
        match env.llm2 with
        | .ok _ => true
        | .error _ => false
      | _ => false

/-- Messages a successful turn appends to the transcript, before the
sliding-window trim (meaningful only when `turnOk` holds). -/
def turnMsgs (env : AgentEnv) (user_query : String)
    (target_file : Option String) : List Msg :=
  match env.llm1 with
  | .error _ => [Msg.user user_query]
  | .ok r =>
    if r.tool_calls.isEmpty then [Msg.user user_query, Msg.assistant r.content]
    else
      let (_, msgs, _, _) := execToolCalls env target_file r.tool_calls []
      match env.llm2 with
      | .error _ =>
        Msg.user user_query :: Msg.assistantToolCalls r.tool_calls :: msgs
      | .ok fr =>
        Msg.user user_query :: Msg.assistantToolCalls r.tool_calls :: msgs ++
          [Msg.assistant fr.content]

/-! ## Store lemmas -/

theorem storeGet_storeSet_self (mem : SessionStore) (sid : String) (h : List Msg) :
    storeGet (storeSet mem sid h) sid = h := by
  induction mem with
  | nil => simp [storeSet, storeGet]
  | cons p rest ih =>
    by_cases hp : p.1 == sid
    · simp [storeSet, storeGet, hp]
    · simp [storeSet, storeGet, hp, ih]

theorem storeSet_storeSet_self (mem : SessionStore) (sid : String) (a b : List Msg) :
    storeSet (storeSet mem sid a) sid b = storeSet mem sid b := by
  induction mem with
  | nil => simp [storeSet]
  | cons p rest ih =>
    by_cases hp : p.1 == sid
    · simp [storeSet, hp]
    · simp [storeSet, hp, ih]

theorem storeContains_storeSet_self (mem : SessionStore) (sid : String) (h : List Msg) :
    storeContains (storeSet mem sid h) sid = true := by
  induction mem with
  | nil => simp [storeSet, storeContains]
  | cons p rest ih =>
    by_cases hp : p.1 == sid
    · simp [storeSet, storeContains, hp]
    · simpa [storeSet, storeContains, hp] using ih

theorem mem_storeSet {mem : SessionStore} {sid : String} {h : List Msg}
    {p : String × List Msg} (hp : p ∈ storeSet mem sid h) :
    p.2 = h ∨ p ∈ mem := by
  induction mem with
  | nil => simp [storeSet] at hp; simp [hp]
  | cons q rest ih =>
    by_cases hq : q.1 == sid
    · simp only [storeSet, if_pos hq, List.mem_cons] at hp
      rcases hp with rfl | hp
      · left; rfl
      · right; simp [hp]
    · simp only [storeSet, if_neg hq, List.mem_cons] at hp
      rcases hp with rfl | hp
      · right; simp
      · rcases ih hp with hh | hh
        · left; exact hh
        · right; simp [hh]

theorem storeContains_mem {mem : SessionStore} {sid : String}
    (h : storeContains mem sid = true) : (sid, storeGet mem sid) ∈ mem := by
  induction mem with
  | nil => simp [storeContains] at h
  | cons p rest ih =>
    by_cases hp : p.1 == sid
    · have : p.1 = sid := by simpa using hp
      simp only [storeGet, if_pos hp, List.mem_cons]
      left
      rw [← this]
    · simp only [storeContains, List.any_cons, hp, Bool.false_or] at h
      simp only [storeGet, if_neg hp, List.mem_cons]
      right
      exact ih h

/-! ## C1: the caller-supplied scope always overrides the model -/

theorem execToolCalls_filter (env : AgentEnv) (target_file : Option String) :
    ∀ (calls : List ToolCall) (fsrc : SourcesMap),
      ∀ inv ∈ (execToolCalls env target_file calls fsrc).2.2.2,
        inv.filter = target_file := by
  intro calls
  induction calls with
  | nil => intro fsrc inv hinv; simp [execToolCalls] at hinv
  | cons c rest ih =>
    intro fsrc inv hinv
    by_cases hname : c.name = "search_knowledge_base"
    · simp only [execToolCalls, if_pos hname] at hinv
      cases hs : env.search c.arguments.query target_file with
      | error e =>
        rw [hs] at hinv
        simp at hinv
        rw [hinv]
      | ok sources =>
        rw [hs] at hinv
        simp only [List.mem_cons] at hinv
        rcases hinv with rfl | hinv
        · rfl
        · exact ih _ inv hinv
    · simp only [execToolCalls, if_neg hname] at hinv
      exact ih _ inv hinv

/-- C1.  In every turn of `run_agent`, every executed retrieval carries
the caller-supplied `target_file` as its document filter — whatever
filename the model proposed in the tool-call arguments, and for every
environment, query, session, prior store, and history limit. -/
theorem scope_always_caller_supplied (env : AgentEnv) (user_query session_id : String)
    (target_file : Option String) (mem : SessionStore) (max_history_limit : Nat) :
    ∀ inv ∈ (run_agent env user_query session_id target_file mem
      max_history_limit).invocations, inv.filter = target_file := by
  intro inv hinv
  unfold run_agent at hinv
  cases hl1 : env.llm1 with
  | error e => rw [hl1] at hinv; simp at hinv
  | ok r =>
    rw [hl1] at hinv
    by_cases hemp : r.tool_calls.isEmpty
    · simp [hemp] at hinv
    · simp only [hemp, Bool.false_eq_true, if_false] at hinv
      rcases hexec : execToolCalls env target_file r.tool_calls [] with ⟨st, msgs, fsrc, log⟩
      have hlog : ∀ i ∈ log, i.filter = target_file := by
        intro i hi
        exact execToolCalls_filter env target_file r.tool_calls [] i (by rw [hexec]; exact hi)
      rw [hexec] at hinv
      cases st with
      | error e => simp only at hinv; exact hlog inv hinv
      | ok u =>
        cases hl2 : env.llm2 with
        | error e => rw [hl2] at hinv; simp only at hinv; exact hlog inv hinv
        | ok fr => rw [hl2] at hinv; simp only at hinv; exact hlog inv hinv

/-- Concrete turn environment: the model requests one retrieval and
proposes `other_file.pdf` in its arguments, while the caller scoped the
turn to `policy.pdf`. -/
def envC1 : AgentEnv where
  llm1 := .ok ⟨"",
    [⟨"call_1", "search_knowledge_base", ⟨"vacation policy", some "other_file.pdf"⟩⟩]⟩
  search := fun _ _ => .ok [("policy.pdf", ⟨"https://u", ["chunk"]⟩)]
  llm2 := .ok ⟨"answer [Source: policy.pdf]", []⟩

/-- Witness for C1: in the concrete turn the retrieval that actually ran
used the caller's `policy.pdf` filter, not the model's proposal. -/
theorem scope_always_caller_supplied_witness :
    (⟨"call_1", "vacation policy", some "policy.pdf"⟩ : SearchInvocation) ∈
      (run_agent envC1 "What is the vacation policy?" "s1" (some "policy.pdf") []
        10).invocations ∧
    (⟨"call_1", "vacation policy", some "policy.pdf"⟩ : SearchInvocation).filter =
      some "policy.pdf" :=
  ⟨by decide,
    scope_always_caller_supplied envC1 "What is the vacation policy?" "s1"
      (some "policy.pdf") [] 10 _ (by decide)⟩


/-! ## Branch equations for run_agent

One equation per control path, used by the claims about the session
transcript.  `memAfterInit` and `hist1Of` name the state after lazy
session creation and after the user-turn append. -/

def memAfterInit (mem : SessionStore) (session_id : String) : SessionStore :=
  if storeContains mem session_id then mem
  else storeSet mem session_id [Msg.system SYSTEM_PROMPT]

def hist1Of (mem : SessionStore) (session_id user_query : String) : List Msg :=
  storeGet (memAfterInit mem session_id) session_id ++ [Msg.user user_query]

theorem storeGet_memAfterInit (mem : SessionStore) (sid : String) :
    storeGet (memAfterInit mem sid) sid = initHist mem sid := by
  by_cases h : storeContains mem sid
  · simp [memAfterInit, h, initHist]
  · simp [memAfterInit, h, initHist, storeGet_storeSet_self]

theorem run_agent_eq_llm1_error {env : AgentEnv} (e : Unit)
    (h : env.llm1 = .error e) (user_query session_id : String)
    (target_file : Option String) (mem : SessionStore) (max_history_limit : Nat) :
    run_agent env user_query session_id target_file mem max_history_limit =
      ⟨.error e,
        storeSet (memAfterInit mem session_id) session_id
          (hist1Of mem session_id user_query), [], 1⟩ := by
  unfold run_agent
  rw [h]
  rfl

theorem run_agent_eq_no_tools {env : AgentEnv} {r : LLMResponse}
    (h : env.llm1 = .ok r) (hemp : r.tool_calls.isEmpty = true)
    (user_query session_id : String) (target_file : Option String)
    (mem : SessionStore) (max_history_limit : Nat) :
    run_agent env user_query session_id target_file mem max_history_limit =
      ⟨.ok (r.content, []),
        storeSet (storeSet (memAfterInit mem session_id) session_id
            (hist1Of mem session_id user_query)) session_id
          (slidingWindow max_history_limit
            (hist1Of mem session_id user_query ++ [Msg.assistant r.content])),
        [], 1⟩ := by
  unfold run_agent
  rw [h]
  simp only [hemp, if_true]
  rfl

theorem run_agent_eq_exec_error {env : AgentEnv} {r : LLMResponse}
    (h : env.llm1 = .ok r) (hemp : r.tool_calls.isEmpty = false)
    {msgs : List Msg} {fsrc : SourcesMap} {log : List SearchInvocation} (e : Unit)
    {user_query session_id : String} {target_file : Option String}
    (hexec : execToolCalls env target_file r.tool_calls [] = (.error e, msgs, fsrc, log))
    (mem : SessionStore) (max_history_limit : Nat) :
    run_agent env user_query session_id target_file mem max_history_limit =
      ⟨.error e,
        storeSet (storeSet (storeSet (memAfterInit mem session_id) session_id
              (hist1Of mem session_id user_query)) session_id
            (hist1Of mem session_id user_query ++
              [Msg.assistantToolCalls r.tool_calls])) session_id
          (hist1Of mem session_id user_query ++
            [Msg.assistantToolCalls r.tool_calls] ++ msgs),
        log, 1⟩ := by
  unfold run_agent
  rw [h]
  simp only [hemp, Bool.false_eq_true, if_false, hexec]
  rfl

theorem run_agent_eq_llm2_error {env : AgentEnv} {r : LLMResponse}
    (h : env.llm1 = .ok r) (hemp : r.tool_calls.isEmpty = false)
    {msgs : List Msg} {fsrc : SourcesMap} {log : List SearchInvocation} (u : Unit)
    {user_query session_id : String} {target_file : Option String}
    (hexec : execToolCalls env target_file r.tool_calls [] = (.ok u, msgs, fsrc, log))
    (e : Unit) (h2 : env.llm2 = .error e)
    (mem : SessionStore) (max_history_limit : Nat) :
    run_agent env user_query session_id target_file mem max_history_limit =
      ⟨.error e,
        storeSet (storeSet (storeSet (memAfterInit mem session_id) session_id
              (hist1Of mem session_id user_query)) session_id
            (hist1Of mem session_id user_query ++
              [Msg.assistantToolCalls r.tool_calls])) session_id
          (hist1Of mem session_id user_query ++
            [Msg.assistantToolCalls r.tool_calls] ++ msgs),
        log, 2⟩ := by
  unfold run_agent
  rw [h]
  simp only [hemp, Bool.false_eq_true, if_false, hexec, h2]
  rfl

theorem run_agent_eq_success {env : AgentEnv} {r fr : LLMResponse}
    (h : env.llm1 = .ok r) (hemp : r.tool_calls.isEmpty = false)
    {msgs : List Msg} {fsrc : SourcesMap} {log : List SearchInvocation} (u : Unit)
    {user_query session_id : String} {target_file : Option String}
    (hexec : execToolCalls env target_file r.tool_calls [] = (.ok u, msgs, fsrc, log))
    (h2 : env.llm2 = .ok fr)
    (mem : SessionStore) (max_history_limit : Nat) :
    run_agent env user_query session_id target_file mem max_history_limit =
      ⟨.ok (fr.content, fsrc),
        storeSet (storeSet (storeSet (storeSet (memAfterInit mem session_id) session_id
                (hist1Of mem session_id user_query)) session_id
              (hist1Of mem session_id user_query ++
                [Msg.assistantToolCalls r.tool_calls])) session_id
            (hist1Of mem session_id user_query ++
              [Msg.assistantToolCalls r.tool_calls] ++ msgs)) session_id
          (slidingWindow max_history_limit
            (hist1Of mem session_id user_query ++
              [Msg.assistantToolCalls r.tool_calls] ++ msgs ++ [Msg.assistant fr.content])),
        log, 2⟩ := by
  unfold run_agent
  rw [h]
  simp only [hemp, Bool.false_eq_true, if_false, hexec, h2]
  rfl

/-! ## C2: transcript state after a failed turn -/

def exceptIsOk : Except Unit α → Bool
  | .ok _ => true
  | .error _ => false

deriving instance DecidableEq for Except

/-- Turn environment in which every external call raises. -/
def envAllFail : AgentEnv where
  llm1 := .error ()
  search := fun _ _ => .error ()
  llm2 := .error ()

/-- Counterexample to C2.  A turn on the fresh session `s1` whose first
language-model call raises leaves the session created and its stored
transcript already containing the user turn: the store is not the empty
store it was before the failed turn, and the session now exists. -/
theorem run_agent_failure_mutates_store :
    exceptIsOk (run_agent envAllFail "hi" "s1" none [] 10).result = false ∧
    (run_agent envAllFail "hi" "s1" none [] 10).store =
      [("s1", [Msg.system SYSTEM_PROMPT, Msg.user "hi"])] ∧
    storeContains (run_agent envAllFail "hi" "s1" none [] 10).store "s1" = true :=
  ⟨rfl, rfl, rfl⟩

/-- C2 (amended).  When any external call of a turn raises, the
exception propagates and the turn yields no answer, but the turn is not
atomic: the session exists afterwards (it is created at turn start if it
was absent) and its stored transcript is the pre-turn transcript
extended by the user turn, followed by whatever further entries were
appended before the failure point. -/
theorem run_agent_failure_partial_append (env : AgentEnv)
    (user_query session_id : String) (target_file : Option String)
    (mem : SessionStore) (max_history_limit : Nat)
    (h : exceptIsOk (run_agent env user_query session_id target_file mem
      max_history_limit).result = false) :
    storeContains (run_agent env user_query session_id target_file mem
      max_history_limit).store session_id = true ∧
    ∃ extra, storeGet (run_agent env user_query session_id target_file mem
      max_history_limit).store session_id =
        initHist mem session_id ++ Msg.user user_query :: extra := by
  cases hl1 : env.llm1 with
  | error e =>
    rw [run_agent_eq_llm1_error e hl1]
    refine ⟨storeContains_storeSet_self _ _ _, [], ?_⟩
    rw [storeGet_storeSet_self, hist1Of, storeGet_memAfterInit]
  | ok r =>
    by_cases hemp : r.tool_calls.isEmpty
    · rw [run_agent_eq_no_tools hl1 hemp] at h
      simp [exceptIsOk] at h
    · rw [Bool.not_eq_true] at hemp
      rcases hexec : execToolCalls env target_file r.tool_calls [] with ⟨st, msgs, fsrc, log⟩
      cases st with
      | error e =>
        rw [run_agent_eq_exec_error hl1 hemp e hexec]
        refine ⟨storeContains_storeSet_self _ _ _,
          Msg.assistantToolCalls r.tool_calls :: msgs, ?_⟩
        rw [storeGet_storeSet_self, hist1Of, storeGet_memAfterInit]
        simp
      | ok u =>
        cases hl2 : env.llm2 with
        | error e =>
          rw [run_agent_eq_llm2_error hl1 hemp u hexec e hl2]
          refine ⟨storeContains_storeSet_self _ _ _,
            Msg.assistantToolCalls r.tool_calls :: msgs, ?_⟩
          rw [storeGet_storeSet_self, hist1Of, storeGet_memAfterInit]
          simp
        | ok fr =>
          rw [run_agent_eq_success hl1 hemp u hexec hl2] at h
          simp [exceptIsOk] at h

/-- Witness for the amended C2: the concrete failed turn of `envAllFail`
on the empty store leaves session `s1` present with the user turn
appended. -/
theorem run_agent_failure_partial_append_witness :
    storeContains (run_agent envAllFail "hi" "s1" none [] 10).store "s1" = true ∧
    ∃ extra, storeGet (run_agent envAllFail "hi" "s1" none [] 10).store "s1" =
      initHist [] "s1" ++ Msg.user "hi" :: extra :=
  run_agent_failure_partial_append envAllFail "hi" "s1" none [] 10 (by decide)

/-! ## C6: the system instruction is always the first transcript entry -/

/-- Invariant: every session transcript in the store starts with the
system instruction turn. -/
def headInv (mem : SessionStore) : Prop :=
  ∀ p ∈ mem, ∃ t, p.2 = Msg.system SYSTEM_PROMPT :: t

theorem headInv_storeSet {mem : SessionStore} (hinv : headInv mem)
    (sid : String) {h : List Msg} (hh : ∃ t, h = Msg.system SYSTEM_PROMPT :: t) :
    headInv (storeSet mem sid h) := by
  intro p hp
  rcases mem_storeSet hp with hp2 | hp2
  · rw [hp2]; exact hh
  · exact hinv p hp2

theorem headInv_memAfterInit {mem : SessionStore} (hinv : headInv mem)
    (sid : String) : headInv (memAfterInit mem sid) := by
  unfold memAfterInit
  by_cases h : storeContains mem sid
  · simpa [h] using hinv
  · simp only [h, if_false, Bool.false_eq_true]
    exact headInv_storeSet hinv sid ⟨[], rfl⟩

theorem initHist_head {mem : SessionStore} (hinv : headInv mem) (sid : String) :
    ∃ t, initHist mem sid = Msg.system SYSTEM_PROMPT :: t := by
  unfold initHist
  by_cases h : storeContains mem sid
  · simp only [h, if_true]
    exact hinv _ (storeContains_mem h)
  · simp only [h, if_false, Bool.false_eq_true]
    exact ⟨[], rfl⟩

theorem hist1Of_head {mem : SessionStore} (hinv : headInv mem)
    (sid q : String) : ∃ t, hist1Of mem sid q = Msg.system SYSTEM_PROMPT :: t := by
  obtain ⟨t, ht⟩ := initHist_head hinv sid
  exact ⟨t ++ [Msg.user q], by rw [hist1Of, storeGet_memAfterInit, ht]; simp⟩

theorem slidingWindow_head (n : Nat) (x : Msg) (t : List Msg) :
    ∃ t2, slidingWindow n (x :: t) = x :: t2 := by
  unfold slidingWindow
  by_cases h : (x :: t).length > n + 1
  · rw [if_pos h]
    exact ⟨pySliceLast n (x :: t), rfl⟩
  · rw [if_neg h]
    exact ⟨t, rfl⟩

/-- Every turn of `run_agent`, whether it completes or raises, preserves
the invariant that all stored transcripts start with the system turn. -/
theorem headInv_run_agent (env : AgentEnv) (user_query session_id : String)
    (target_file : Option String) (mem : SessionStore) (max_history_limit : Nat)
    (hinv : headInv mem) :
    headInv (run_agent env user_query session_id target_file mem
      max_history_limit).store := by
  have hmai := headInv_memAfterInit hinv session_id
  obtain ⟨t1, ht1⟩ := hist1Of_head hinv session_id user_query
  cases hl1 : env.llm1 with
  | error e =>
    rw [run_agent_eq_llm1_error e hl1]
    exact headInv_storeSet hmai _ ⟨t1, ht1⟩
  | ok r =>
    by_cases hemp : r.tool_calls.isEmpty
    · rw [run_agent_eq_no_tools hl1 hemp]
      refine headInv_storeSet (headInv_storeSet hmai _ ⟨t1, ht1⟩) _ ?_
      rw [ht1]
      exact slidingWindow_head _ _ _
    · rw [Bool.not_eq_true] at hemp
      rcases hexec : execToolCalls env target_file r.tool_calls [] with ⟨st, msgs, fsrc, log⟩
      cases st with
      | error e =>
        rw [run_agent_eq_exec_error hl1 hemp e hexec]
        refine headInv_storeSet (headInv_storeSet (headInv_storeSet hmai _ ⟨t1, ht1⟩) _
          ⟨t1 ++ [Msg.assistantToolCalls r.tool_calls], by rw [ht1]; simp⟩) _ ?_
        rw [ht1]
        exact ⟨t1 ++ Msg.assistantToolCalls r.tool_calls :: msgs, by simp⟩
      | ok u =>
        cases hl2 : env.llm2 with
        | error e =>
          rw [run_agent_eq_llm2_error hl1 hemp u hexec e hl2]
          refine headInv_storeSet (headInv_storeSet (headInv_storeSet hmai _ ⟨t1, ht1⟩) _
            ⟨t1 ++ [Msg.assistantToolCalls r.tool_calls], by rw [ht1]; simp⟩) _ ?_
          rw [ht1]
          exact ⟨t1 ++ Msg.assistantToolCalls r.tool_calls :: msgs, by simp⟩
        | ok fr =>
          rw [run_agent_eq_success hl1 hemp u hexec hl2]
          refine headInv_storeSet (headInv_storeSet (headInv_storeSet (headInv_storeSet
            hmai _ ⟨t1, ht1⟩) _
            ⟨t1 ++ [Msg.assistantToolCalls r.tool_calls], by rw [ht1]; simp⟩) _
            ⟨t1 ++ Msg.assistantToolCalls r.tool_calls :: msgs, by rw [ht1]; simp⟩) _ ?_
          rw [ht1]
          simp only [List.cons_append]
          exact slidingWindow_head _ _ _

theorem headInv_runTurns (max_history_limit : Nat) (turns : List TurnSpec) :
    ∀ mem : SessionStore, headInv mem →
      headInv (runTurns max_history_limit turns mem) := by
  induction turns with
  | nil => intro mem hinv; exact hinv
  | cons t rest ih =>
    intro mem hinv
    exact ih _ (headInv_run_agent t.env t.user_query t.session_id t.target_file mem
      max_history_limit hinv)

/-- C6.  After any sequence of `/ask` turns starting from the empty
session store — turns that create sessions, turns that trim, and turns
that fail alike — every session that exists has the fixed system
instruction turn as the first entry of its stored transcript. -/
theorem first_entry_always_system (max_history_limit : Nat) (turns : List TurnSpec)
    (sid : String)
    (h : storeContains (runTurns max_history_limit turns []) sid = true) :
    (storeGet (runTurns max_history_limit turns []) sid).head? =
      some (Msg.system SYSTEM_PROMPT) := by
  have hinv : headInv (runTurns max_history_limit turns []) :=
    headInv_runTurns max_history_limit turns [] (by intro p hp; simp at hp)
  obtain ⟨t, ht⟩ := hinv _ (storeContains_mem h)
  simp only at ht
  rw [ht]
  rfl

/-- Simple turn environment: the model answers directly, no tools. -/
def envDirect : AgentEnv where
  llm1 := .ok ⟨"4", []⟩
  search := fun _ _ => .ok []
  llm2 := .ok ⟨"", []⟩

/-- Witness for C6: after a concrete first turn on a fresh store the
transcript of `s1` starts with the system instruction. -/
theorem first_entry_always_system_witness :
    (storeGet (runTurns 10 [⟨envDirect, "What is 2+2?", "s1", none⟩] []) "s1").head? =
      some (Msg.system SYSTEM_PROMPT) :=
  first_entry_always_system 10 [⟨envDirect, "What is 2+2?", "s1", none⟩] "s1" (by decide)

/-! ## C8: scoped retrieval and citation grouping -/

theorem addHit_context_nonempty {m : SourcesMap}
    (hm : ∀ p ∈ m, p.2.context ≠ []) (d : IndexDoc) :
    ∀ p ∈ addHit m d, p.2.context ≠ [] := by
  intro p hp
  unfold addHit at hp
  set key := d.source_document with hkey
  by_cases hc : smContains m key
  · rw [if_pos hc] at hp
    obtain ⟨q, hq, rfl⟩ := List.mem_map.mp hp
    by_cases hqk : q.1 == key
    · simp only [hqk, if_true]
      simp
    · simp only [hqk, Bool.false_eq_true, if_false]
      exact hm q hq
  · rw [if_neg hc] at hp
    obtain ⟨q, hq, rfl⟩ := List.mem_map.mp hp
    rcases List.mem_append.mp hq with hq2 | hq2
    · by_cases hqk : q.1 == key
      · simp only [hqk, if_true]
        simp
      · simp only [hqk, Bool.false_eq_true, if_false]
        exact hm q hq2
    · simp only [List.mem_singleton] at hq2
      subst hq2
      simp

theorem addHit_keys {P0 : String → Prop} {m : SourcesMap}
    (hm : ∀ p ∈ m, P0 p.1) {d : IndexDoc} (hd : P0 d.source_document) :
    ∀ p ∈ addHit m d, P0 p.1 := by
  intro p hp
  unfold addHit at hp
  set key := d.source_document with hkey
  have hmap : ∀ (src : SourcesMap), (∀ q ∈ src, P0 q.1) →
      ∀ x ∈ src.map (fun p => if p.1 == key then
        (p.1, { p.2 with context := p.2.context ++ [d.content] }) else p), P0 x.1 := by
    intro src hsrc x hx
    obtain ⟨q, hq, rfl⟩ := List.mem_map.mp hx
    by_cases hqk : q.1 == key
    · simp only [hqk, if_true]
      exact hsrc q hq
    · simp only [hqk, Bool.false_eq_true, if_false]
      exact hsrc q hq
  by_cases hc : smContains m key
  · rw [if_pos hc] at hp
    exact hmap m hm p hp
  · rw [if_neg hc] at hp
    refine hmap _ ?_ p hp
    intro q hq
    rcases List.mem_append.mp hq with hq2 | hq2
    · exact hm q hq2
    · simp only [List.mem_singleton] at hq2
      subst hq2
      exact hd

theorem foldl_addHit_context_nonempty :
    ∀ (hits : List IndexDoc) (m : SourcesMap),
      (∀ p ∈ m, p.2.context ≠ []) → ∀ p ∈ hits.foldl addHit m, p.2.context ≠ [] := by
  intro hits
  induction hits with
  | nil => intro m hm; exact hm
  | cons d rest ih =>
    intro m hm
    exact ih (addHit m d) (addHit_context_nonempty hm d)

theorem foldl_addHit_keys (P0 : String → Prop) :
    ∀ (hits : List IndexDoc) (m : SourcesMap),
      (∀ p ∈ m, P0 p.1) → (∀ d ∈ hits, P0 d.source_document) →
      ∀ p ∈ hits.foldl addHit m, P0 p.1 := by
  intro hits
  induction hits with
  | nil => intro m hm _; exact hm
  | cons d rest ih =>
    intro m hm hd
    exact ih (addHit m d) (addHit_keys hm (hd d (by simp)))
      (fun x hx => hd x (by simp [hx]))

theorem mem_azureSearch_filter {index : List IndexDoc} {D : String} {count : Nat}
    {d : IndexDoc} (hd : d ∈ azureSearch index (some D) count) :
    d.source_document = D := by
  unfold azureSearch at hd
  have := List.mem_of_mem_take hd
  have := (List.mem_filter.mp this).2
  simpa using this

/-- C8.  Every entry of the mapping returned by `search_knowledge_base`
has a non-empty chunk list (no empty placeholder entries, scoped or
not), and when a scope `D` was supplied every key of the mapping is `D`
— no chunk of another document is ever returned. -/
theorem search_knowledge_base_scoped (index : List IndexDoc) (query : String)
    (filename_filter : Option String) (count : Nat) (k : String) (e : SourceEntry)
    (hmem : (k, e) ∈ search_knowledge_base index query filename_filter count) :
    e.context ≠ [] ∧ ∀ D, filename_filter = some D → k = D := by
  unfold search_knowledge_base at hmem
  constructor
  · exact foldl_addHit_context_nonempty _ [] (by simp) _ hmem
  · intro D hD
    subst hD
    exact foldl_addHit_keys (fun k => k = D) _ [] (by simp)
      (fun d hd => mem_azureSearch_filter hd) _ hmem

/-- Witness for C8: a concrete two-document index queried with scope
`policy.pdf` yields an entry whose chunk list is non-empty and whose key
is the scope. -/
def idxC8 : List IndexDoc :=
  [⟨"k1", "chunk a", [1], 1, "u1", "policy.pdf"⟩,
   ⟨"k2", "chunk b", [2], 1, "u2", "other.pdf"⟩]

theorem search_knowledge_base_scoped_witness :
    ("policy.pdf", (⟨"u1", ["chunk a"]⟩ : SourceEntry)) ∈
      search_knowledge_base idxC8 "vacation" (some "policy.pdf") 5 ∧
    (⟨"u1", ["chunk a"]⟩ : SourceEntry).context ≠ [] ∧
    ∀ D, (some "policy.pdf" : Option String) = some D → "policy.pdf" = D :=
  ⟨by decide,
    search_knowledge_base_scoped idxC8 "vacation" (some "policy.pdf") 5
      "policy.pdf" ⟨"u1", ["chunk a"]⟩ (by decide)⟩

/-! ## C4: DocumentRecord status after pipeline termination -/

def blobStatus (blobs : BlobStore) (filename : String) : Option String :=
  (blobGet blobs filename).map (·.status)

theorem blobGet_blobSet_self (blobs : BlobStore) (n : String) (v : BlobMeta) :
    blobGet (blobSet blobs n v) n = some v := by
  induction blobs with
  | nil => simp [blobSet, blobGet]
  | cons p rest ih =>
    by_cases hp : p.1 == n
    · simp [blobSet, blobGet, hp]
    · simp [blobSet, blobGet, hp, ih]

theorem update_blob_status_ready {blobs b1 : BlobStore} {f s : String} {p : Nat}
    (h : update_blob_status blobs f p s = .ok b1) : blobStatus b1 f = some s := by
  unfold update_blob_status at h
  cases hg : blobGet blobs f with
  | none => rw [hg] at h; cases h
  | some meta =>
    rw [hg] at h
    cases h
    simp [blobStatus, blobGet_blobSet_self]

/-- C4 (what the code does).  For every run of
`process_and_index_document`: if any step fails, the pipeline raises and
leaves the blob store — and hence the status tag — exactly as it was, so
a document uploaded as `processing` stays `processing` forever and the
tag `failed` is never written; `ready` is written exactly on the runs in
which every step succeeded. -/
theorem ingest_status_never_failed (env : IngestEnv) (filename file_url : String)
    (index : List IndexDoc) (blobs : BlobStore) :
    (exceptIsOk (process_and_index_document env filename file_url index
        blobs).result = false →
      (process_and_index_document env filename file_url index blobs).blobs = blobs) ∧
    (exceptIsOk (process_and_index_document env filename file_url index
        blobs).result = true →
      blobStatus (process_and_index_document env filename file_url index
        blobs).blobs filename = some "ready") := by
  unfold process_and_index_document
  cases hext : env.extract with
  | error e => exact ⟨fun _ => rfl, fun hc => by simp [exceptIsOk] at hc⟩
  | ok tp =>
    obtain ⟨markdown_text, page_count⟩ := tp
    dsimp only
    cases hemb : env.embed (env.chunker markdown_text) with
    | error e => exact ⟨fun _ => rfl, fun hc => by simp [exceptIsOk] at hc⟩
    | ok embeddings =>
      dsimp only
      by_cases hlen : embeddings.length < (env.chunker markdown_text).length
      · rw [if_pos hlen]
        exact ⟨fun _ => rfl, fun hc => by simp [exceptIsOk] at hc⟩
      · rw [if_neg hlen]
        by_cases hdocs : (buildSearchDocs filename file_url (env.chunker markdown_text)
          embeddings).isEmpty
        · rw [if_pos hdocs]
          cases hupd : update_blob_status blobs filename page_count "ready" with
          | error e => exact ⟨fun _ => rfl, fun hc => by simp [exceptIsOk] at hc⟩
          | ok blobs1 =>
            exact ⟨fun hc => by simp [exceptIsOk] at hc,
              fun _ => update_blob_status_ready hupd⟩
        · rw [if_neg hdocs]
          by_cases hdel : env.deleteOk
          · rw [if_pos hdel]
            by_cases hupl : env.uploadOk
            · rw [if_pos hupl]
              cases hupd : update_blob_status blobs filename page_count "ready" with
              | error e => exact ⟨fun _ => rfl, fun hc => by simp [exceptIsOk] at hc⟩
              | ok blobs1 =>
                exact ⟨fun hc => by simp [exceptIsOk] at hc,
                  fun _ => update_blob_status_ready hupd⟩
            · rw [if_neg hupl]
              exact ⟨fun _ => rfl, fun hc => by simp [exceptIsOk] at hc⟩
          · rw [if_neg hdel]
            exact ⟨fun _ => rfl, fun hc => by simp [exceptIsOk] at hc⟩

/-- Ingestion environment whose extraction step raises. -/
def envExtractFail : IngestEnv where
  extract := .error ()
  chunker := fun _ => []
  embed := fun _ => .error ()
  deleteOk := false
  uploadOk := false

/-- Blob store holding `policy.pdf` freshly uploaded as `processing`. -/
def blobsProcessing : BlobStore :=
  [("policy.pdf", ⟨"processing", "policy.pdf", none, [37, 80, 68, 70]⟩)]

/-- Witness for C4: a concrete run whose extraction step raises leaves
the blob store untouched, so the status is still `processing` — not
`failed`. -/
theorem ingest_status_never_failed_witness :
    (process_and_index_document envExtractFail "policy.pdf" "u" []
      blobsProcessing).blobs = blobsProcessing ∧
    blobStatus (process_and_index_document envExtractFail "policy.pdf" "u" []
      blobsProcessing).blobs "policy.pdf" = some "processing" :=
  ⟨(ingest_status_never_failed envExtractFail "policy.pdf" "u" [] blobsProcessing).1
      (by decide),
    by decide⟩

/-! ## C7: ingestion is idempotent on unchanged extracted text -/

/-- The run-independent part of an indexed chunk: storage key, chunk
text, ordinal position. -/
def chunkProjection (d : IndexDoc) : String × String × Nat :=
  (d.id, d.content, d.chunk_index)

/-- C7.  Two pipeline runs over the same document whose extraction
yields the same text (the chunker is the same deterministic
`RecursiveChunker` in both runs) build chunk sets that agree in storage
key, chunk text, and ordinal — whatever embedding vectors and page
counts each run obtained. -/
theorem ingest_idempotent_on_text (env1 env2 : IngestEnv)
    (filename file_url : String) (text : String) (pages1 pages2 : Nat)
    (em1 em2 : List (List Int))
    (hch : env1.chunker = env2.chunker)
    (hx1 : env1.extract = .ok (text, pages1))
    (hx2 : env2.extract = .ok (text, pages2)) :
    (buildSearchDocs filename file_url (env1.chunker text) em1).map chunkProjection =
      (buildSearchDocs filename file_url (env2.chunker text) em2).map chunkProjection := by
  rw [hch]
  simp only [buildSearchDocs, List.map_map]
  rfl

/-- Ingestion environment that succeeds with fixed text and embeddings. -/
def envIngestOk : IngestEnv where
  extract := .ok ("Vacation policy: 20 days.", 1)
  chunker := fun t => [t]
  embed := fun ts => .ok (ts.map (fun _ => [1]))
  deleteOk := true
  uploadOk := true

/-- Witness for C7: the concrete second run with different embedding
vectors produces the same keys, texts, and ordinals as the first. -/
theorem ingest_idempotent_on_text_witness :
    (buildSearchDocs "policy.pdf" "u" (envIngestOk.chunker "Vacation policy: 20 days.")
        [[1]]).map chunkProjection =
      (buildSearchDocs "policy.pdf" "u" (envIngestOk.chunker "Vacation policy: 20 days.")
        [[2]]).map chunkProjection :=
  ingest_idempotent_on_text envIngestOk envIngestOk "policy.pdf" "u"
    "Vacation policy: 20 days." 1 1 [[1]] [[2]] rfl rfl rfl

/-! ## C9: the sanitized filename is the document identity everywhere -/

theorem mem_buildSearchDocs {f url : String} {chunks : List String}
    {em : List (List Int)} {d : IndexDoc} (hd : d ∈ buildSearchDocs f url chunks em) :
    d.source_document = f ∧ ∃ i, d.id = encodeKey f i := by
  unfold buildSearchDocs at hd
  obtain ⟨p, _, rfl⟩ := List.mem_map.mp hd
  exact ⟨rfl, p.1, rfl⟩

/-- C9.  A successful upload stores the raw file under
`secure_filename(submitted name)` — which can differ from the submitted
name — returns that clean name as the document identifier handed to the
background pipeline, whose indexed chunks all carry it as
`source_document` and derive their storage keys from it; and two uploads
whose names sanitize to the same string address the same blob (the
second overwrites) and the same chunk-key space. -/
theorem upload_identity_is_sanitized (blobs : BlobStore) (name : String)
    (content : List Nat) (pdf_ok : Bool) (blobs1 : BlobStore) (clean url : String)
    (h : upload_pdf blobs name content pdf_ok = .ok (blobs1, clean, url)) :
    clean = secure_filename name ∧
    blobGet blobs1 clean = some ⟨"processing", name, none, content⟩ ∧
    (∀ file_url chunks em, ∀ d ∈ buildSearchDocs clean file_url chunks em,
      d.source_document = clean ∧ ∃ i, d.id = encodeKey clean i) ∧
    secure_filename "my file.pdf" ≠ "my file.pdf" ∧
    (∀ n1 n2 : String, secure_filename n1 = secure_filename n2 →
      (∀ bs c1 c2, blobGet (upload_to_blob (upload_to_blob bs c1 n1).1 c2 n2).1
          (secure_filename n1) = some ⟨"processing", n2, none, c2⟩) ∧
      ∀ i, encodeKey (secure_filename n1) i = encodeKey (secure_filename n2) i) := by
  unfold upload_pdf at h
  by_cases hpdf : (!pyEndsWith name ".pdf") = true
  · rw [if_pos hpdf] at h; cases h
  · rw [if_neg hpdf] at h
    by_cases hok : (!pdf_ok) = true
    · rw [if_pos hok] at h; cases h
    · rw [if_neg hok] at h
      unfold upload_to_blob at h
      injection h with h
      have hb : blobs1 = blobSet blobs (secure_filename name)
          ⟨"processing", name, none, content⟩ := congrArg Prod.fst h.symm
      have hc : clean = secure_filename name := congrArg (fun t => t.2.1) h.symm
      refine ⟨hc, ?_, ?_, ?_, ?_⟩
      · rw [hb, hc]
        exact blobGet_blobSet_self _ _ _
      · intro file_url chunks em d hd
        exact mem_buildSearchDocs hd
      · decide
      · intro n1 n2 hsan
        constructor
        · intro bs c1 c2
          unfold upload_to_blob
          rw [hsan]
          exact blobGet_blobSet_self _ _ _
        · intro i
          rw [hsan]

/-- Witness for C9: uploading `my file.pdf` stores the blob under the
sanitized name `my_file.pdf`, which differs from the submitted name. -/
theorem upload_identity_is_sanitized_witness :
    ("my_file.pdf" : String) = secure_filename "my file.pdf" ∧
    secure_filename "my file.pdf" ≠ "my file.pdf" := by
  have h := upload_identity_is_sanitized [] "my file.pdf" [1, 2] true
    [("my_file.pdf", ⟨"processing", "my file.pdf", none, [1, 2]⟩)] "my_file.pdf"
    "https://account.blob.core.windows.net/documents/my_file.pdf" (by decide)
  exact ⟨h.1, h.2.2.2.1⟩

/-! ## C10: tool calls with an unknown name are silently skipped -/

def isToolMsgId (call_id : String) : Msg → Bool
  | .tool tid _ _ => tid == call_id
  | _ => false

theorem execToolCalls_all_ok (env : AgentEnv) (target_file : Option String)
    (hs : ∀ q t, exceptIsOk (env.search q t) = true) :
    ∀ (calls : List ToolCall) (fsrc : SourcesMap),
      (execToolCalls env target_file calls fsrc).1 = .ok () := by
  intro calls
  induction calls with
  | nil => intro fsrc; rfl
  | cons c rest ih =>
    intro fsrc
    by_cases hname : c.name = "search_knowledge_base"
    · simp only [execToolCalls, if_pos hname]
      cases hsc : env.search c.arguments.query target_file with
      | error e => have := hs c.arguments.query target_file; rw [hsc] at this; cases this
      | ok sources => simpa using ih (dictUpdate fsrc sources)
    · simpa only [execToolCalls, if_neg hname] using ih fsrc

theorem execToolCalls_msgs_shape (env : AgentEnv) (target_file : Option String) :
    ∀ (calls : List ToolCall) (fsrc : SourcesMap),
      ∀ m ∈ (execToolCalls env target_file calls fsrc).2.1,
        ∃ c ∈ calls, c.name = "search_knowledge_base" ∧
          ∃ payload, m = Msg.tool c.id "search_knowledge_base" payload := by
  intro calls
  induction calls with
  | nil => intro fsrc m hm; simp [execToolCalls] at hm
  | cons c rest ih =>
    intro fsrc m hm
    by_cases hname : c.name = "search_knowledge_base"
    · simp only [execToolCalls, if_pos hname] at hm
      cases hsc : env.search c.arguments.query target_file with
      | error e => rw [hsc] at hm; simp at hm
      | ok sources =>
        rw [hsc] at hm
        simp only [List.mem_cons] at hm
        rcases hm with rfl | hm
        · exact ⟨c, by simp, hname, sources, rfl⟩
        · obtain ⟨c2, hc2, hn2, payload, hp⟩ := ih _ m hm
          exact ⟨c2, by simp [hc2], hn2, payload, hp⟩
    · simp only [execToolCalls, if_neg hname] at hm
      obtain ⟨c2, hc2, hn2, payload, hp⟩ := ih _ m hm
      exact ⟨c2, by simp [hc2], hn2, payload, hp⟩

theorem execToolCalls_log_shape (env : AgentEnv) (target_file : Option String) :
    ∀ (calls : List ToolCall) (fsrc : SourcesMap),
      ∀ inv ∈ (execToolCalls env target_file calls fsrc).2.2.2,
        ∃ c ∈ calls, c.name = "search_knowledge_base" ∧ inv.call_id = c.id := by
  intro calls
  induction calls with
  | nil => intro fsrc inv hinv; simp [execToolCalls] at hinv
  | cons c rest ih =>
    intro fsrc inv hinv
    by_cases hname : c.name = "search_knowledge_base"
    · simp only [execToolCalls, if_pos hname] at hinv
      cases hsc : env.search c.arguments.query target_file with
      | error e =>
        rw [hsc] at hinv
        simp at hinv
        exact ⟨c, by simp, hname, by rw [hinv]⟩
      | ok sources =>
        rw [hsc] at hinv
        simp only [List.mem_cons] at hinv
        rcases hinv with rfl | hinv
        · exact ⟨c, by simp, hname, rfl⟩
        · obtain ⟨c2, hc2, hn2, hid⟩ := ih _ inv hinv
          exact ⟨c2, by simp [hc2], hn2, hid⟩
    · simp only [execToolCalls, if_neg hname] at hinv
      obtain ⟨c2, hc2, hn2, hid⟩ := ih _ inv hinv
      exact ⟨c2, by simp [hc2], hn2, hid⟩

theorem execToolCalls_msgs_length (env : AgentEnv) (target_file : Option String) :
    ∀ (calls : List ToolCall) (fsrc : SourcesMap),
      (execToolCalls env target_file calls fsrc).2.1.length ≤ calls.length := by
  intro calls
  induction calls with
  | nil => intro fsrc; simp [execToolCalls]
  | cons c rest ih =>
    intro fsrc
    by_cases hname : c.name = "search_knowledge_base"
    · simp only [execToolCalls, if_pos hname]
      cases hsc : env.search c.arguments.query target_file with
      | error e => simp
      | ok sources =>
        simp only [List.length_cons]
        exact Nat.succ_le_succ (ih _)
    · simp only [execToolCalls, if_neg hname, List.length_cons]
      exact Nat.le_succ_of_le (ih _)

theorem slidingWindow_of_short {l : List Msg} {n : Nat} (h : l.length ≤ n + 1) :
    slidingWindow n l = l := by
  unfold slidingWindow
  rw [if_neg (by omega)]

theorem hist1Of_nil (session_id user_query : String) :
    hist1Of [] session_id user_query =
      [Msg.system SYSTEM_PROMPT, Msg.user user_query] := by
  simp [hist1Of, memAfterInit, storeContains, storeSet, storeGet]

/-- C10.  If the model's response contains a tool call whose name is not
`search_knowledge_base`, the loop executes no retrieval for that call
and appends no tool turn answering its call identifier, yet the
assistant turn carrying the pending call is appended and the second
language-model call is still issued: the persisted transcript contains a
pending tool invocation with no matching tool turn.  (Stated on a fresh
session with every retrieval for the other calls succeeding and a
history limit large enough that the trim is the identity.) -/
theorem unknown_tool_call_skipped (env : AgentEnv) (r fr : LLMResponse)
    (c : ToolCall) (user_query session_id : String) (target_file : Option String)
    (max_history_limit : Nat)
    (hl1 : env.llm1 = .ok r) (hl2 : env.llm2 = .ok fr)
    (hc : c ∈ r.tool_calls) (hname : c.name ≠ "search_knowledge_base")
    (hid : ∀ c2 ∈ r.tool_calls, c2.name = "search_knowledge_base" → c2.id ≠ c.id)
    (hs : ∀ q t, exceptIsOk (env.search q t) = true)
    (htrim : r.tool_calls.length + 3 ≤ max_history_limit) :
    (∀ inv ∈ (run_agent env user_query session_id target_file []
      max_history_limit).invocations, inv.call_id ≠ c.id) ∧
    (run_agent env user_query session_id target_file [] max_history_limit).llm_calls = 2 ∧
    Msg.assistantToolCalls r.tool_calls ∈
      storeGet (run_agent env user_query session_id target_file []
        max_history_limit).store session_id ∧
    ∀ m ∈ storeGet (run_agent env user_query session_id target_file []
      max_history_limit).store session_id, isToolMsgId c.id m = false := by
  have hemp : r.tool_calls.isEmpty = false := by
    cases htc : r.tool_calls with
    | nil => rw [htc] at hc; simp at hc
    | cons a l => simp
  rcases hexec : execToolCalls env target_file r.tool_calls [] with ⟨st, msgs, fsrc, log⟩
  have hst : st = .ok () := by
    have := execToolCalls_all_ok env target_file hs r.tool_calls []
    rw [hexec] at this
    exact this
  subst hst
  have hmsgs := execToolCalls_msgs_shape env target_file r.tool_calls []
  rw [hexec] at hmsgs
  have hlog := execToolCalls_log_shape env target_file r.tool_calls []
  rw [hexec] at hlog
  have hmlen := execToolCalls_msgs_length env target_file r.tool_calls []
  rw [hexec] at hmlen
  simp only at hmsgs hlog hmlen
  rw [run_agent_eq_success hl1 hemp () hexec hl2]
  simp only [storeGet_storeSet_self]
  have hfull : (hist1Of [] session_id user_query ++
      [Msg.assistantToolCalls r.tool_calls] ++ msgs ++
      [Msg.assistant fr.content]).length ≤ max_history_limit + 1 := by
    rw [hist1Of_nil]
    simp only [List.length_append, List.length_cons, List.length_singleton,
      List.length_nil]
    omega
  rw [slidingWindow_of_short hfull]
  refine ⟨?_, ?_, ?_, ?_⟩
  · intro inv hinv
    obtain ⟨c2, hc2, hn2, hid2⟩ := hlog inv hinv
    rw [hid2]
    exact hid c2 hc2 hn2
  · trivial
  · rw [hist1Of_nil]
    simp
  · intro m hm
    rw [hist1Of_nil] at hm
    simp only [List.append_assoc, List.cons_append, List.nil_append, List.mem_cons,
      List.mem_append, List.not_mem_nil, or_false] at hm
    rcases hm with rfl | rfl | rfl | hm | rfl
    · rfl
    · rfl
    · rfl
    · obtain ⟨c2, hc2, hn2, payload, rfl⟩ := hmsgs m hm
      simp only [isToolMsgId]
      exact beq_eq_false_iff_ne.mpr (hid c2 hc2 hn2)
    · rfl

/-- Turn environment whose model emits a single tool call named
`other_tool`, which is not the declared retrieval tool. -/
def envUnknownTool : AgentEnv where
  llm1 := .ok ⟨"", [⟨"call_9", "other_tool", ⟨"q", none⟩⟩]⟩
  search := fun _ _ => .ok []
  llm2 := .ok ⟨"final", []⟩

/-- Witness for C10: in the concrete turn the second model call is
still issued and the assistant turn with the pending `other_tool` call
is persisted (while, by the theorem, no tool turn answers `call_9`). -/
theorem unknown_tool_call_skipped_witness :
    (run_agent envUnknownTool "hi" "s1" none [] 10).llm_calls = 2 ∧
    Msg.assistantToolCalls [⟨"call_9", "other_tool", ⟨"q", none⟩⟩] ∈
      storeGet (run_agent envUnknownTool "hi" "s1" none [] 10).store "s1" := by
  have h := unknown_tool_call_skipped envUnknownTool ⟨"", [⟨"call_9", "other_tool", ⟨"q", none⟩⟩]⟩
    ⟨"final", []⟩ ⟨"call_9", "other_tool", ⟨"q", none⟩⟩ "hi" "s1" none 10
    rfl rfl (by decide) (by decide) (by decide) (fun q t => rfl) (by decide)
  exact ⟨h.2.1, h.2.2.1⟩

/-! ## C3: re-ingestion and the state of the index -/

theorem mem_uploadDocs_step {acc : List IndexDoc} {d' d : IndexDoc}
    (hd : d ∈ (if acc.any (fun e => e.id == d'.id) then
      acc.map (fun e => if e.id == d'.id then d' else e) else acc ++ [d'])) :
    d ∈ acc ∨ d = d' := by
  by_cases hany : acc.any (fun e => e.id == d'.id)
  · rw [if_pos hany] at hd
    obtain ⟨q, hq, rfl⟩ := List.mem_map.mp hd
    by_cases hqid : q.id == d'.id
    · right
      simp [hqid]
    · simp only [hqid, Bool.false_eq_true, if_false]
      left; exact hq
  · rw [if_neg hany] at hd
    rcases List.mem_append.mp hd with h | h
    · left; exact h
    · right; simpa using h

theorem mem_uploadDocs : ∀ (docs acc : List IndexDoc) (d : IndexDoc),
    d ∈ uploadDocs acc docs → d ∈ acc ∨ d ∈ docs := by
  intro docs
  induction docs with
  | nil => intro acc d hd; left; exact hd
  | cons d' rest ih =>
    intro acc d hd
    rcases ih _ d hd with h | h
    · rcases mem_uploadDocs_step h with h2 | h2
      · left; exact h2
      · right; simp [h2]
    · right; simp [h]

theorem uploadDocs_preserves : ∀ (docs acc : List IndexDoc) (d : IndexDoc),
    d ∈ acc → (∀ e ∈ docs, e.id ≠ d.id) → d ∈ uploadDocs acc docs := by
  intro docs
  induction docs with
  | nil => intro acc d hd _; exact hd
  | cons d' rest ih =>
    intro acc d hd hne
    refine ih _ d ?_ (fun e he => hne e (by simp [he]))
    by_cases hany : acc.any (fun e => e.id == d'.id)
    · simp only [uploadDocs, List.foldl_cons, hany, if_true]
      have : (if d.id == d'.id then d' else d) = d := by
        have := hne d' (by simp)
        simp [beq_eq_false_iff_ne.mpr (fun hh => this hh.symm)]
      rw [← this]
      exact List.mem_map_of_mem _ hd
    · simp only [uploadDocs, List.foldl_cons, hany, Bool.false_eq_true, if_false]
      exact List.mem_append.mpr (Or.inl hd)

theorem uploadDocs_inserts : ∀ (docs acc : List IndexDoc),
    (docs.map (·.id)).Nodup → ∀ d ∈ docs, d ∈ uploadDocs acc docs := by
  intro docs
  induction docs with
  | nil => intro acc _ d hd; simp at hd
  | cons d' rest ih =>
    intro acc hnd d hd
    have hstep : ∀ acc2 : List IndexDoc, d' ∈ (if acc2.any (fun e => e.id == d'.id) then
        acc2.map (fun e => if e.id == d'.id then d' else e) else acc2 ++ [d']) := by
      intro acc2
      by_cases hany : acc2.any (fun e => e.id == d'.id)
      · rw [if_pos hany]
        obtain ⟨q, hq, hqid⟩ := List.any_eq_true.mp hany
        have hmem := List.mem_map_of_mem (fun e => if e.id == d'.id then d' else e) hq
        simp only [hqid, if_true] at hmem
        exact hmem
      · rw [if_neg hany]
        simp
    rcases List.mem_cons.mp hd with rfl | hd2
    · simp only [uploadDocs, List.foldl_cons]
      refine uploadDocs_preserves rest _ d (hstep acc) ?_
      intro e he heq
      simp only [List.map_cons, List.nodup_cons] at hnd
      exact hnd.1 (heq ▸ List.mem_map_of_mem _ he)
    · simp only [uploadDocs, List.foldl_cons]
      exact ih _ (by simpa using (List.nodup_cons.mp (by simpa using hnd)).2) d hd2

theorem uploadDocs_nodup_ids : ∀ (docs acc : List IndexDoc),
    (acc.map (·.id)).Nodup → ((uploadDocs acc docs).map (·.id)).Nodup := by
  intro docs
  induction docs with
  | nil => intro acc h; exact h
  | cons d' rest ih =>
    intro acc hacc
    simp only [uploadDocs, List.foldl_cons]
    refine ih _ ?_
    by_cases hany : acc.any (fun e => e.id == d'.id)
    · rw [if_pos hany]
      have : (acc.map (fun e => if e.id == d'.id then d' else e)).map (·.id) =
          acc.map (·.id) := by
        rw [List.map_map]
        refine List.map_congr_left ?_
        intro e _
        by_cases he : e.id == d'.id
        · simp only [Function.comp, he, if_true]
          exact (eq_of_beq he).symm
        · simp [Function.comp, he]
      rw [this]
      exact hacc
    · rw [if_neg hany]
      rw [List.map_append]
      simp only [List.map_singleton]
      rw [List.nodup_append]
      refine ⟨hacc, List.nodup_singleton _, ?_⟩
      have hforall : ∀ e ∈ acc, ¬(e.id == d'.id) = true := by
        simpa using hany
      intro a ha hb
      simp only [List.mem_singleton] at hb
      subst hb
      obtain ⟨e, he, heid⟩ := List.mem_map.mp ha
      have hne := hforall e he
      simp only [beq_iff_eq] at hne
      exact hne heid

theorem mem_delete_any_existing {index : List IndexDoc} {f : String} {d : IndexDoc} :
    d ∈ delete_any_existing_documents index f ↔
      d ∈ index ∧ ∀ e ∈ index, e.source_document = f → e.id ≠ d.id := by
  unfold delete_any_existing_documents
  rw [List.mem_filter]
  have hkeysiff : ∀ hk : List String,
      ((!hk.contains d.id) = true ↔ ∀ x ∈ hk, d.id ≠ x) := by
    intro hk
    rw [Bool.not_eq_true', List.contains_eq_any_beq, List.any_eq_false]
    constructor
    · intro h x hx
      simpa using h x hx
    · intro h x hx
      simpa using h x hx
  rw [hkeysiff]
  constructor
  · rintro ⟨hmem, hkeys⟩
    refine ⟨hmem, fun e he hef heid => ?_⟩
    exact hkeys e.id
      (List.mem_map_of_mem _ (List.mem_filter.mpr ⟨he, by simp [hef]⟩)) heid.symm
  · rintro ⟨hmem, hids⟩
    refine ⟨hmem, fun x hx => ?_⟩
    obtain ⟨e, he, rfl⟩ := List.mem_map.mp hx
    have he2 := List.mem_filter.mp he
    have hsrc : e.source_document = f := by simpa using he2.2
    exact fun hdx => hids e he2.1 hsrc hdx.symm

theorem delete_nodup_ids {index : List IndexDoc} (h : (index.map (·.id)).Nodup)
    (f : String) : ((delete_any_existing_documents index f).map (·.id)).Nodup := by
  unfold delete_any_existing_documents
  exact h.sublist (List.Sublist.map _ (List.filter_sublist index))

theorem buildSearchDocs_nodup_ids {f : String}
    (hf : ∀ c ∈ f.data, c.toNat < 256) (url : String) (chunks : List String)
    (em : List (List Int)) :
    ((buildSearchDocs f url chunks em).map (·.id)).Nodup := by
  unfold buildSearchDocs
  rw [List.map_map]
  have : ((fun d : IndexDoc => d.id) ∘ (fun p : Nat × String =>
      ({ id := encodeKey f p.1, content := p.2, text_vector := em.getD p.1 [],
         chunk_index := p.1 + 1, source_url := url,
         source_document := f } : IndexDoc))) =
      (encodeKey f) ∘ Prod.fst := rfl
  rw [this, ← List.map_map]
  refine List.Nodup.map (fun i j hij => encodeKey_injective hf hij) ?_
  rw [List.enum_map_fst]
  exact List.nodup_range _

theorem buildSearchDocs_ne_nil {f url : String} {chunks : List String}
    {em : List (List Int)} (h : chunks ≠ []) :
    (buildSearchDocs f url chunks em).isEmpty = false := by
  unfold buildSearchDocs
  cases chunks with
  | nil => exact absurd rfl h
  | cons a l => rfl

/-- Index state after a pipeline run that reaches the indexing step with
at least one chunk: old generation deleted, new generation upserted. -/
theorem process_index_eq (env : IngestEnv) (f url : String)
    (index : List IndexDoc) (blobs : BlobStore)
    {text : String} {pages : Nat} {em : List (List Int)}
    (hx : env.extract = .ok (text, pages))
    (hemb : env.embed (env.chunker text) = .ok em)
    (hlen : ¬ em.length < (env.chunker text).length)
    (hne : env.chunker text ≠ [])
    (hdel : env.deleteOk = true) (hupl : env.uploadOk = true) :
    (process_and_index_document env f url index blobs).index =
      uploadDocs (delete_any_existing_documents index f)
        (buildSearchDocs f url (env.chunker text) em) := by
  unfold process_and_index_document
  rw [hx]
  dsimp only
  rw [hemb]
  dsimp only
  rw [if_neg hlen, buildSearchDocs_ne_nil hne]
  simp only [Bool.false_eq_true, if_false, hdel, hupl, if_true]
  cases hupd : update_blob_status blobs f pages "ready" with
  | error e => rfl
  | ok blobs1 => rfl

/-- C3 (amended).  Provided the second run produces at least one chunk,
re-running the pipeline for a document leaves the index holding, among
documents owned by that `document_id`, exactly the chunk set built by
that run — no stale survivor from any earlier run, no duplicate keys
anywhere in the index.  (When the run produces zero chunks the guard
`if search_documents:` skips the delete step; see the counterexample.) -/
theorem reingest_index_exactly_second_run (env2 : IngestEnv) (f url : String)
    (hf : ∀ c ∈ f.data, c.toNat < 256)
    (index1 : List IndexDoc) (blobs1 : BlobStore)
    (hnodup : (index1.map (·.id)).Nodup)
    {text2 : String} {pages2 : Nat} {em2 : List (List Int)}
    (hx : env2.extract = .ok (text2, pages2))
    (hemb : env2.embed (env2.chunker text2) = .ok em2)
    (hlen : ¬ em2.length < (env2.chunker text2).length)
    (hne : env2.chunker text2 ≠ [])
    (hdel : env2.deleteOk = true) (hupl : env2.uploadOk = true) :
    (∀ d : IndexDoc,
      (d ∈ (process_and_index_document env2 f url index1 blobs1).index ∧
        d.source_document = f) ↔
      d ∈ buildSearchDocs f url (env2.chunker text2) em2) ∧
    (((process_and_index_document env2 f url index1 blobs1).index.map (·.id)).Nodup) := by
  rw [process_index_eq env2 f url index1 blobs1 hx hemb hlen hne hdel hupl]
  have hdocsnodup := buildSearchDocs_nodup_ids hf url (env2.chunker text2) em2
  constructor
  · intro d
    constructor
    · rintro ⟨hmem, hsrc⟩
      rcases mem_uploadDocs _ _ _ hmem with h | h
      · exfalso
        obtain ⟨hidx, hids⟩ := mem_delete_any_existing.mp h
        exact hids d hidx hsrc rfl
      · exact h
    · intro hd
      exact ⟨uploadDocs_inserts _ _ hdocsnodup d hd, (mem_buildSearchDocs hd).1⟩
  · exact uploadDocs_nodup_ids _ _ (delete_nodup_ids hnodup f)

/-- Deterministic chunker used by the concrete runs: empty text yields
no chunks, anything else one chunk. -/
def chunkerModel : String → List String :=
  fun t => if t.data.isEmpty then [] else [t]

/-- First concrete run: one chunk of text. -/
def envRun1 : IngestEnv where
  extract := .ok ("Vacation policy text.", 1)
  chunker := chunkerModel
  embed := fun ts => .ok (ts.map fun _ => [0])
  deleteOk := true
  uploadOk := true

/-- Second concrete run over the same document: the edited document now
extracts to empty text, so chunking yields zero chunks. -/
def envRun2 : IngestEnv where
  extract := .ok ("", 1)
  chunker := chunkerModel
  embed := fun ts => .ok (ts.map fun _ => [0])
  deleteOk := true
  uploadOk := true

/-- Counterexample to C3.  Ingest `policy.pdf` once (one chunk), then
re-ingest it with a second run that completes — its result is `ok` and
the status is republished — but produces zero chunks: because the delete
step sits under `if search_documents:`, nothing is deleted, and the
first run's chunk survives in the index even though the second run's
chunk set is empty. -/
theorem reingest_counterexample :
    envRun2.chunker "" = [] ∧
    exceptIsOk (process_and_index_document envRun2 "policy.pdf" "u"
      (process_and_index_document envRun1 "policy.pdf" "u" [] blobsProcessing).index
      (process_and_index_document envRun1 "policy.pdf" "u" [] blobsProcessing).blobs).result
      = true ∧
    (process_and_index_document envRun2 "policy.pdf" "u"
      (process_and_index_document envRun1 "policy.pdf" "u" [] blobsProcessing).index
      (process_and_index_document envRun1 "policy.pdf" "u" [] blobsProcessing).blobs).index.filter
        (fun d => d.source_document == "policy.pdf") ≠ [] := by
  refine ⟨rfl, rfl, ?_⟩
  decide

/-- Witness for the amended C3: the concrete non-empty second run leaves
an index with pairwise-distinct chunk keys. -/
theorem reingest_index_exactly_second_run_witness :
    ((process_and_index_document envRun1 "policy.pdf" "u" []
      blobsProcessing).index.map (·.id)).Nodup :=
  (reingest_index_exactly_second_run envRun1 "policy.pdf" "u" (by decide) []
    blobsProcessing (by simp) rfl rfl (by decide) (by decide) rfl rfl).2

/-! ## C5: the sliding-window retention policy -/

theorem storeSet_memAfterInit (mem : SessionStore) (sid : String) (h : List Msg) :
    storeSet (memAfterInit mem sid) sid h = storeSet mem sid h := by
  unfold memAfterInit
  by_cases hc : storeContains mem sid
  · rw [if_pos hc]
  · rw [if_neg hc, storeSet_storeSet_self]

theorem initHist_of_contains {mem : SessionStore} {sid : String}
    (h : storeContains mem sid = true) : initHist mem sid = storeGet mem sid := by
  unfold initHist
  rw [if_pos h]

theorem suffix_drop (p s : List Msg) (n : Nat) (h : n ≤ s.length) :
    (p ++ s).drop ((p ++ s).length - n) = s.drop (s.length - n) := by
  rw [List.length_append]
  have hh : p.length + s.length - n = p.length + (s.length - n) := by omega
  rw [hh]
  simp [List.drop_append]

/-- Core recurrence of the retention policy: appending a turn's entries
to a windowed transcript and trimming again windows the extended full
history (`N ≥ 1`, so the Python slice `[-N:]` really takes the last `N`
entries). -/
theorem trim_invariant (N : Nat) (hN : 1 ≤ N) (F tm : List Msg) :
    slidingWindow N (Msg.system SYSTEM_PROMPT :: (F.drop (F.length - N) ++ tm)) =
      Msg.system SYSTEM_PROMPT :: (F ++ tm).drop ((F ++ tm).length - N) := by
  have hDlen : (F.drop (F.length - N)).length = F.length - (F.length - N) :=
    List.length_drop _ _
  have hsuffix : F ++ tm = F.take (F.length - N) ++ (F.drop (F.length - N) ++ tm) := by
    rw [← List.append_assoc, List.take_append_drop]
  unfold slidingWindow
  by_cases htrim :
      (Msg.system SYSTEM_PROMPT :: (F.drop (F.length - N) ++ tm)).length > N + 1
  · rw [if_pos htrim]
    have h1 : (Msg.system SYSTEM_PROMPT :: (F.drop (F.length - N) ++ tm)).take 1 =
        [Msg.system SYSTEM_PROMPT] := rfl
    rw [h1]
    unfold pySliceLast
    rw [if_neg (by omega : ¬ N = 0)]
    have hk : (Msg.system SYSTEM_PROMPT :: (F.drop (F.length - N) ++ tm)).length - N =
        ((F.drop (F.length - N) ++ tm).length - N) + 1 := by
      simp only [List.length_cons, List.length_append] at htrim ⊢
      omega
    rw [hk, List.drop_succ_cons]
    have hDtmlen : N ≤ (F.drop (F.length - N) ++ tm).length := by
      simp only [List.length_cons, List.length_append] at htrim ⊢
      omega
    have := suffix_drop (F.take (F.length - N)) (F.drop (F.length - N) ++ tm) N hDtmlen
    rw [← hsuffix] at this
    rw [this]
    rfl
  · rw [if_neg htrim]
    have hcond : (F.drop (F.length - N)).length + tm.length ≤ N := by
      simp only [List.length_cons, List.length_append] at htrim
      omega
    by_cases hF : F.length ≤ N
    · have hD0 : F.length - N = 0 := by omega
      have hdropall : (F ++ tm).length - N = 0 := by
        simp only [List.length_append]
        rw [hD0, List.drop_zero] at hcond
        omega
      rw [hD0, List.drop_zero, hdropall, List.drop_zero]
    · have hDN : (F.drop (F.length - N)).length = N := by omega
      have htm : tm = [] := by
        rw [hDN] at hcond
        exact List.length_eq_zero.mp (by omega)
      subst htm
      simp

/-- Store written by a successful turn: the pre-turn transcript (or the
fresh one) extended by the turn's entries, trimmed. -/
theorem run_agent_ok_store (env : AgentEnv) (user_query session_id : String)
    (target_file : Option String) (mem : SessionStore) (N : Nat)
    (hok : turnOk env target_file = true) :
    (run_agent env user_query session_id target_file mem N).store =
      storeSet mem session_id
        (slidingWindow N
          (initHist mem session_id ++ turnMsgs env user_query target_file)) := by
  cases hl1 : env.llm1 with
  | error e =>
    exfalso
    unfold turnOk at hok
    rw [hl1] at hok
    simp at hok
  | ok r =>
    by_cases hemp : r.tool_calls.isEmpty
    · rw [run_agent_eq_no_tools hl1 hemp]
      rw [storeSet_storeSet_self, storeSet_memAfterInit]
      unfold turnMsgs
      rw [hl1]
      simp only [hemp, if_true]
      rw [hist1Of, storeGet_memAfterInit]
      simp [List.append_assoc]
    · rw [Bool.not_eq_true] at hemp
      rcases hexec : execToolCalls env target_file r.tool_calls [] with ⟨st, msgs, fsrc, log⟩
      cases st with
      | error e =>
        exfalso
        unfold turnOk at hok
        rw [hl1] at hok
        simp only [hemp, Bool.false_eq_true, if_false] at hok
        rw [hexec] at hok
        simp at hok
      | ok u =>
        cases hl2 : env.llm2 with
        | error e =>
          exfalso
          unfold turnOk at hok
          rw [hl1] at hok
          simp only [hemp, Bool.false_eq_true, if_false] at hok
          rw [hexec] at hok
          simp only at hok
          rw [hl2] at hok
          simp at hok
        | ok fr =>
          rw [run_agent_eq_success hl1 hemp u hexec hl2]
          rw [storeSet_storeSet_self, storeSet_storeSet_self, storeSet_storeSet_self,
            storeSet_memAfterInit]
          unfold turnMsgs
          rw [hl1]
          simp only [hemp, Bool.false_eq_true, if_false]
          rw [hexec]
          simp only
          rw [hl2]
          rw [hist1Of, storeGet_memAfterInit]
          simp [List.append_assoc]

/-- Full untrimmed non-system history of a sequence of turns: every
entry each turn appends, in order, across all roles uniformly. -/
def fullHist (turns : List TurnSpec) : List Msg :=
  (turns.map (fun t => turnMsgs t.env t.user_query t.target_file)).flatten

theorem runTurns_stored_inv (N : Nat) (hN : 1 ≤ N) (sid : String) :
    ∀ (turns : List TurnSpec) (mem : SessionStore) (F : List Msg),
      (∀ t ∈ turns, t.session_id = sid) →
      (∀ t ∈ turns, turnOk t.env t.target_file = true) →
      storeContains mem sid = true →
      storeGet mem sid = Msg.system SYSTEM_PROMPT :: F.drop (F.length - N) →
      storeGet (runTurns N turns mem) sid =
        Msg.system SYSTEM_PROMPT ::
          (F ++ fullHist turns).drop ((F ++ fullHist turns).length - N) ∧
      storeContains (runTurns N turns mem) sid = true := by
  intro turns
  induction turns with
  | nil =>
    intro mem F _ _ hcont hget
    simp only [runTurns, List.foldl_nil, fullHist, List.map_nil, List.flatten_nil,
      List.append_nil]
    exact ⟨hget, hcont⟩
  | cons t rest ih =>
    intro mem F hsid hok hcont hget
    have hsid1 : t.session_id = sid := hsid t (by simp)
    have hok1 : turnOk t.env t.target_file = true := hok t (by simp)
    have hstep : (run_agent t.env t.user_query t.session_id t.target_file mem N).store =
        storeSet mem sid (slidingWindow N
          (initHist mem sid ++ turnMsgs t.env t.user_query t.target_file)) := by
      rw [hsid1]
      exact run_agent_ok_store t.env t.user_query sid t.target_file mem N hok1
    have hinit : initHist mem sid = Msg.system SYSTEM_PROMPT :: F.drop (F.length - N) := by
      rw [initHist_of_contains hcont, hget]
    have htrimmed : slidingWindow N
        (initHist mem sid ++ turnMsgs t.env t.user_query t.target_file) =
        Msg.system SYSTEM_PROMPT ::
          (F ++ turnMsgs t.env t.user_query t.target_file).drop
            ((F ++ turnMsgs t.env t.user_query t.target_file).length - N) := by
      rw [hinit]
      exact trim_invariant N hN F (turnMsgs t.env t.user_query t.target_file)
    have hrest := ih (storeSet mem sid (slidingWindow N
        (initHist mem sid ++ turnMsgs t.env t.user_query t.target_file)))
      (F ++ turnMsgs t.env t.user_query t.target_file)
      (fun x hx => hsid x (by simp [hx])) (fun x hx => hok x (by simp [hx]))
      (storeContains_storeSet_self _ _ _)
      (by rw [storeGet_storeSet_self, htrimmed])
    simp only [runTurns, List.foldl_cons] at hrest ⊢
    rw [hstep]
    have hassoc : F ++ turnMsgs t.env t.user_query t.target_file ++ fullHist rest =
        F ++ fullHist (t :: rest) := by
      simp [fullHist, List.append_assoc]
    rw [hassoc] at hrest
    exact hrest

/-- C5 (amended).  For every retention limit `N ≥ 1` and every sequence
of successful turns on one session whose accumulated non-system entries
exceed `N`, the stored transcript is the system turn followed by exactly
the `N` most recent entries of the full untrimmed history: its length is
exactly `N + 1` and its tail is a suffix by recency of the full history,
counting user, assistant, and tool entries uniformly.  (For `N = 0` the
Python slice `history[-0:]` keeps the whole transcript; see the
counterexample.) -/
theorem retention_window_exact (N : Nat) (hN : 1 ≤ N) (turns : List TurnSpec)
    (sid : String)
    (hsid : ∀ t ∈ turns, t.session_id = sid)
    (hok : ∀ t ∈ turns, turnOk t.env t.target_file = true)
    (hlen : N < (fullHist turns).length) :
    storeGet (runTurns N turns []) sid =
      Msg.system SYSTEM_PROMPT ::
        (fullHist turns).drop ((fullHist turns).length - N) ∧
    (storeGet (runTurns N turns []) sid).length = N + 1 ∧
    ∃ pre, fullHist turns = pre ++ (storeGet (runTurns N turns []) sid).tail := by
  cases turns with
  | nil => simp [fullHist] at hlen
  | cons t rest =>
    have hsid1 : t.session_id = sid := hsid t (by simp)
    have hok1 : turnOk t.env t.target_file = true := hok t (by simp)
    have hstep : (run_agent t.env t.user_query t.session_id t.target_file [] N).store =
        storeSet [] sid (slidingWindow N
          (initHist [] sid ++ turnMsgs t.env t.user_query t.target_file)) := by
      rw [hsid1]
      exact run_agent_ok_store t.env t.user_query sid t.target_file [] N hok1
    have hinit : initHist [] sid =
        Msg.system SYSTEM_PROMPT :: ([] : List Msg).drop (0 - N) := by
      simp [initHist, storeContains]
    have htrimmed : slidingWindow N
        (initHist [] sid ++ turnMsgs t.env t.user_query t.target_file) =
        Msg.system SYSTEM_PROMPT ::
          (([] : List Msg) ++ turnMsgs t.env t.user_query t.target_file).drop
            ((([] : List Msg) ++ turnMsgs t.env t.user_query t.target_file).length - N) := by
      rw [hinit]
      exact trim_invariant N hN [] (turnMsgs t.env t.user_query t.target_file)
    have hmain := runTurns_stored_inv N hN sid rest
      (storeSet [] sid (slidingWindow N
        (initHist [] sid ++ turnMsgs t.env t.user_query t.target_file)))
      (turnMsgs t.env t.user_query t.target_file)
      (fun x hx => hsid x (by simp [hx])) (fun x hx => hok x (by simp [hx]))
      (storeContains_storeSet_self _ _ _)
      (by rw [storeGet_storeSet_self, htrimmed]; simp)
    have hassoc : turnMsgs t.env t.user_query t.target_file ++ fullHist rest =
        fullHist (t :: rest) := by
      simp [fullHist]
    rw [hassoc] at hmain
    have hstored : storeGet (runTurns N (t :: rest) []) sid =
        Msg.system SYSTEM_PROMPT ::
          (fullHist (t :: rest)).drop ((fullHist (t :: rest)).length - N) := by
      simp only [runTurns, List.foldl_cons] at hmain ⊢
      rw [hstep]
      exact hmain.1
    refine ⟨hstored, ?_, ?_⟩
    · rw [hstored]
      simp only [List.length_cons, List.length_drop]
      omega
    · refine ⟨(fullHist (t :: rest)).take ((fullHist (t :: rest)).length - N), ?_⟩
      rw [hstored]
      simp only [List.tail_cons]
      rw [List.take_append_drop]

/-- Counterexample to C5.  With the configured maximum `N = 0` the trim
condition fires after one successful turn (2 non-system entries > 0),
but the Python slice `history[-0:]` is the whole list, so the stored
transcript has length 4 (`[history[0]] + history` duplicates the system
turn) instead of the claimed `N + 1 = 1`: the store does not keep "only
the most recent N entries". -/
theorem retention_window_counterexample :
    turnOk envDirect none = true ∧
    0 < (fullHist [⟨envDirect, "hi", "s1", none⟩]).length ∧
    (storeGet (runTurns 0 [⟨envDirect, "hi", "s1", none⟩] []) "s1").length ≠ 0 + 1 := by
  refine ⟨rfl, by decide, by decide⟩

/-- Witness for the amended C5: one successful turn with `N = 1`
exceeds the window and the stored transcript is the system turn plus
exactly the most recent entry. -/
theorem retention_window_exact_witness :
    storeGet (runTurns 1 [⟨envDirect, "hi", "s1", none⟩] []) "s1" =
      Msg.system SYSTEM_PROMPT ::
        (fullHist [⟨envDirect, "hi", "s1", none⟩]).drop
          ((fullHist [⟨envDirect, "hi", "s1", none⟩]).length - 1) ∧
    (storeGet (runTurns 1 [⟨envDirect, "hi", "s1", none⟩] []) "s1").length = 1 + 1 := by
  have h := retention_window_exact 1 (by omega) [⟨envDirect, "hi", "s1", none⟩] "s1"
    (by intro t ht; simp at ht; rw [ht]) (by intro t ht; simp at ht; rw [ht]; rfl)
    (by decide)
  exact ⟨h.1, h.2.1⟩
